import Mathlib

/-!
# Verification of the A2ML document parser

Shallow embedding of `src/rust/src/parser.rs` (a nom-based recursive-descent
parser for the A2ML markup language) and proofs of the specification claims
about it.

Modelling conventions:
* Rust `&str` input is modelled as `List Char` (`Input`).
* A nom parser `Fn(&str) -> IResult<&str, T>` is modelled as
  `Input → Except Input (Input × T)`; the `.error` payload is the input slice
  carried by the nom error (`e.input`).  The source uses no `cut`, so every
  failure is a recoverable `nom::Err::Error`; the `Error`/`Failure`
  distinction therefore collapses and a single error constructor is faithful.
* `nom::multi::many0`/`many1` loop until the inner parser fails, and signal an
  error when an iteration succeeds without consuming input (nom compares the
  remaining input before and after).  The loop is modelled with explicit fuel
  `inp.length + 1`, which is never exhausted for the strictly-consuming inner
  parsers used here (proved below).
* Rust `char::is_whitespace` is modelled on the ASCII range
  (`' '`, `'\t'`, `'\r'`, `'\n'`) — exactly the characters nom's
  `multispace0/1` accepts; `char::is_numeric` is modelled as `Char.isDigit`.
  All inputs in the claims are ASCII, where these coincide with Rust.
-/

namespace A2ML

abbrev Input := List Char

/-- ASCII whitespace: the character set of nom's `multispace0`,
also modelling Rust `char::is_whitespace` / `str::trim` on ASCII input. -/
def isWS (c : Char) : Bool := c = ' ' || c = '\t' || c = '\r' || c = '\n'

/-- The character set of nom's `space0`/`space1` (space and tab). -/
def isSP (c : Char) : Bool := c = ' ' || c = '\t'

/-- Models Rust `char::is_numeric` (coincides on the ASCII range used here). -/
def isNumericChar (c : Char) : Bool := c.isDigit

/-- Rust `str::trim_start` (ASCII whitespace). -/
def ltrim (l : Input) : Input := l.dropWhile isWS

/-- Rust `str::trim_end` (ASCII whitespace). -/
def rtrim (l : Input) : Input := (l.reverse.dropWhile isWS).reverse

/-- Rust `str::trim` (ASCII whitespace). -/
def trim (l : Input) : Input := rtrim (ltrim l)

/-- Index of the first occurrence of `t` as a contiguous substring, if any.
Models Rust `str::find(&str)` / nom's `take_until` search. -/
def firstSubIdx (t : Input) : Input → Option Nat
  | [] => if t.isPrefixOf ([] : Input) then some 0 else none
  | c :: r => if t.isPrefixOf (c :: r) then some 0 else (firstSubIdx t r).map (· + 1)

/-- Models Rust `str::contains(&str)`. -/
def containsSub (t s : Input) : Bool := (firstSubIdx t s).isSome

/-- A nom parser over a string slice: either the unconsumed remainder plus a
value, or an error carrying the input at the failure point (`e.input`). -/
def Parser (α : Type) : Type := Input → Except Input (Input × α)

def ppure (a : α) : Parser α := fun inp => .ok (inp, a)

def pbind (p : Parser α) (f : α → Parser β) : Parser β := fun inp =>
  match p inp with
  | .ok (i, a) => f a i
  | .error e => .error e

instance : Monad Parser where
  pure := ppure
  bind := pbind

/-- nom `bytes::complete::tag`. -/
def tagP (t : Input) : Parser Unit := fun inp =>
  if t.isPrefixOf inp then .ok (inp.drop t.length, ()) else .error inp

/-- nom `character::complete::char`. -/
def charP (c : Char) : Parser Char := fun inp =>
  match inp with
  | c' :: rest => if c' = c then .ok (rest, c) else .error inp
  | [] => .error inp

/-- nom `take_while` (always succeeds, possibly empty match). -/
def takeWhileP (p : Char → Bool) : Parser Input := fun inp =>
  .ok (inp.dropWhile p, inp.takeWhile p)

/-- nom `take_while1` (requires a non-empty match). -/
def takeWhile1P (p : Char → Bool) : Parser Input := fun inp =>
  match inp.takeWhile p with
  | [] => .error inp
  | tk => .ok (inp.dropWhile p, tk)

def multispace0 : Parser Input := takeWhileP isWS

def multispace1 : Parser Input := takeWhile1P isWS

def space0 : Parser Input := takeWhileP isSP

def space1 : Parser Input := takeWhile1P isSP

/-- nom `character::complete::line_ending`: `"\n"` or `"\r\n"`. -/
def lineEnding : Parser Input := fun inp =>
  match inp with
  | '\n' :: r => .ok (r, ['\n'])
  | '\r' :: '\n' :: r => .ok (r, ['\r', '\n'])
  | _ => .error inp

/-- The characters `not_line_ending` consumes: everything except `'\r'`/`'\n'`. -/
def nlePred (c : Char) : Bool := !(c = '\r' || c = '\n')

/-- nom `character::complete::not_line_ending` (complete): consumes up to the
first `'\r'`/`'\n'`; a bare `'\r'` not followed by `'\n'` is an error. -/
def notLineEnding : Parser Input := fun inp =>
  match inp.dropWhile nlePred with
  | '\r' :: '\n' :: r2 => .ok ('\r' :: '\n' :: r2, inp.takeWhile nlePred)
  | '\r' :: _ => .error inp
  | r => .ok (r, inp.takeWhile nlePred)

/-- nom `bytes::complete::take_until`: consume up to (excluding) the first
occurrence of `t`; error if `t` never occurs. -/
def takeUntilP (t : Input) : Parser Input := fun inp =>
  match firstSubIdx t inp with
  | some i => .ok (inp.drop i, inp.take i)
  | none => .error inp

/-- nom `combinator::opt`: recovers from a (recoverable) failure without
consuming input. -/
def optP (p : Parser α) : Parser (Option α) := fun inp =>
  match p inp with
  | .ok (i, a) => .ok (i, some a)
  | .error _ => .ok (inp, none)

/-- nom `branch::alt` on two alternatives (chained for more). -/
def orElseP (p q : Parser α) : Parser α := fun inp =>
  match p inp with
  | .ok r => .ok r
  | .error _ => q inp

/-- The loop body shared by nom `many0`/`many1`: iterate `p`, stopping at the
first failure, erroring if an iteration consumes no input (nom compares the
remaining inputs for equality).  `fuel` bounds the iteration count; callers
pass `inp.length + 1`, which is never exhausted when `p` strictly consumes. -/
def many0Aux (p : Parser α) : Nat → Parser (List α)
  | 0 => fun inp => .error inp
  | fuel + 1 => fun inp =>
    match p inp with
    | .error _ => .ok (inp, [])
    | .ok (i, a) =>
      if i = inp then .error inp
      else
        match many0Aux p fuel i with
        | .ok (i2, as) => .ok (i2, a :: as)
        | .error e => .error e

/-- nom `multi::many0`. -/
def many0 (p : Parser α) : Parser (List α) := fun inp =>
  many0Aux p (inp.length + 1) inp

/-- nom `multi::many1`: the first iteration must succeed (no progress check on
it, per nom); subsequent iterations follow the `many0` loop. -/
def many1 (p : Parser α) : Parser (List α) := fun inp =>
  match p inp with
  | .error e => .error e
  | .ok (i, a) =>
    match many0Aux p (i.length + 1) i with
    | .ok (i2, as) => .ok (i2, a :: as)
    | .error e => .error e

/-- nom `sequence::terminated`. -/
def terminatedP (p : Parser α) (q : Parser β) : Parser α := do
  let a ← p
  _ ← q
  pure a

/-- nom `sequence::preceded`. -/
def precededP (p : Parser α) (q : Parser β) : Parser β := do
  _ ← p
  q

/-- nom `combinator::map`. -/
def mapP (p : Parser α) (f : α → β) : Parser β := do
  let a ← p
  pure (f a)

/-- Returns the current remaining input without consuming it; models the Rust
code reading the `input` variable when building the final struct. -/
def peekRest : Parser Input := fun inp => .ok (inp, inp)

-- ============================================================================
-- Data model (parser.rs structs)
-- ============================================================================

structure Reference where
  id : Input
  text : Input
  url : Option Input
deriving DecidableEq, Repr

inductive ContentBlock where
  | Paragraph (text : Input)
  | BulletList (items : List Input)
  | Table (headers : List Input) (rows : List (List Input))
  | CodeBlock (language : Option Input) (code : Input)
  | HorizontalRule
deriving DecidableEq, Repr

structure Attestation where
  claim : Input
  requirement : Input
  reference : Option Input
deriving DecidableEq, Repr

structure Section where
  heading : Input
  level : Nat
  content : List ContentBlock
  attestations : List Attestation
  line_number : Nat
deriving DecidableEq, Repr

structure A2mlDocument where
  abstract_text : Option Input
  sections : List Section
  references : List Reference
  requirements : List Input
  raw : Input
deriving DecidableEq, Repr

/-- The error type of `parse_a2ml_string` (the file-I/O variants of the Rust
`PolicyError` enum are outside the string-parsing path modelled here). -/
inductive PolicyError where
  | ParseError (msg : Input)
deriving DecidableEq, Repr

-- ============================================================================
-- Parser rules (parser.rs functions, translated line by line)
-- ============================================================================

/-- `fn abstract_directive`: `@abstract:` ms0 take_until("@end") `@end` ms0,
returning the trimmed body. -/
def abstract_directive : Parser Input := do
  _ ← tagP "@abstract:".toList
  _ ← multispace0
  let content ← takeUntilP "@end".toList
  _ ← tagP "@end".toList
  _ ← multispace0
  pure (trim content)

/-- `fn requires_directive`: `@requires:` ms0, one or more
`- <line>` items (each `'-'`, `space0`, rest-of-line trimmed, line ending),
then `@end` ms0. -/
def requires_directive : Parser (List Input) := do
  _ ← tagP "@requires:".toList
  _ ← multispace0
  let items ← many1 (terminatedP
    (precededP (do _ ← charP '-'; space0) (mapP notLineEnding trim))
    lineEnding)
  _ ← tagP "@end".toList
  _ ← multispace0
  pure items

/-- `fn reference`: `[<digits>]` space0 rest-of-line line-ending, then the
URL-splitting heuristic on the trimmed rest-of-line text. -/
def reference : Parser Reference := do
  _ ← charP '['
  let idStr ← takeWhile1P isNumericChar
  _ ← charP ']'
  _ ← space0
  let text ← notLineEnding
  _ ← lineEnding
  let text_str := trim text
  if containsSub "http://".toList text_str || containsSub "https://".toList text_str then
    match firstSubIdx "http".toList text_str with
    | some start =>
      let url_part := text_str.drop start
      let url_end := (url_part.findIdx? (fun c => isWS c || c = ')')).getD url_part.length
      pure ⟨idStr, trim (text_str.take start), some (url_part.take url_end)⟩
    | none => pure ⟨idStr, text_str, none⟩
  else
    pure ⟨idStr, text_str, none⟩

/-- `fn refs_directive`: `@refs:` ms0, one or more references, `@end` ms0. -/
def refs_directive : Parser (List Reference) := do
  _ ← tagP "@refs:".toList
  _ ← multispace0
  let refs ← many1 reference
  _ ← tagP "@end".toList
  _ ← multispace0
  pure refs

/-- `fn heading`: one or more `#`, required whitespace, rest of line (trimmed),
line ending; level clamped to 6. -/
def heading : Parser (Nat × Input) := do
  let hashes ← takeWhile1P (fun c => c = '#')
  _ ← space1
  let text ← notLineEnding
  _ ← lineEnding
  pure (min hashes.length 6, trim text)

/-- `fn is_paragraph_line`: prefix tests, in source order. -/
def is_paragraph_line (input : Input) : Bool :=
  match input with
  | [] => false
  | first_char :: _ =>
    if first_char = '#' then false
    else if "---".toList.isPrefixOf input then false
    else if "```".toList.isPrefixOf input then false
    else if "@".toList.isPrefixOf input then false
    else if "- ".toList.isPrefixOf input then false
    else true

/-- `fn paragraph_line`: guard with `is_paragraph_line`, then rest of line. -/
def paragraph_line : Parser Input := fun inp =>
  if is_paragraph_line inp then notLineEnding inp else .error inp

/-- `fn paragraph`: one or more paragraph lines (each with its line ending),
joined with `'\n'` and trimmed; an empty result is a failure (the error carries
the post-consumption input, as in the Rust source where `input` is shadowed). -/
def paragraph : Parser ContentBlock := fun inp =>
  match many1 (terminatedP paragraph_line lineEnding) inp with
  | .error e => .error e
  | .ok (i, lines) =>
    let text := trim (List.intercalate ['\n'] lines)
    if text = [] then .error i
    else .ok (i, .Paragraph text)

/-- `fn list_item`: `'-'`, required space, rest of line trimmed, line ending. -/
def list_item : Parser Input := do
  _ ← charP '-'
  _ ← space1
  let text ← notLineEnding
  _ ← lineEnding
  pure (trim text)

/-- `fn bullet_list`: one or more list items. -/
def bullet_list : Parser ContentBlock := do
  let items ← many1 list_item
  pure (ContentBlock.BulletList items)

/-- `fn horizontal_rule`: literal `---` then a line ending. -/
def horizontal_rule : Parser ContentBlock := do
  _ ← tagP "---".toList
  _ ← lineEnding
  pure ContentBlock.HorizontalRule

/-- `fn code_block`: ```` ``` ````, optional language tag (rest of fence line,
trimmed), line ending, verbatim text up to the closing fence, the closing
fence, and an optional trailing line ending. -/
def code_block : Parser ContentBlock := do
  _ ← tagP "```".toList
  let language ← optP (mapP notLineEnding trim)
  _ ← lineEnding
  let code ← takeUntilP "```".toList
  _ ← tagP "```".toList
  _ ← optP lineEnding
  pure (ContentBlock.CodeBlock language code)

/-- `fn content_block`: `alt((horizontal_rule, bullet_list, code_block,
paragraph))` — alternatives tried strictly in this order. -/
def content_block : Parser ContentBlock :=
  orElseP horizontal_rule (orElseP bullet_list (orElseP code_block paragraph))

/-- Rust `text.lines().next().unwrap_or("")`: the first line (up to the first
`'\n'`, with one trailing `'\r'` stripped); `""` for empty text. -/
def firstLine (t : Input) : Input :=
  let l := t.takeWhile (fun c => c ≠ '\n')
  match l.reverse with
  | '\r' :: r => r.reverse
  | _ => l

/-- Everything after the first occurrence of `sep` (meaningful only when
`containsSub sep t`). -/
def afterFirstSub (sep t : Input) : Input :=
  match firstSubIdx sep t with
  | some i => t.drop (i + sep.length)
  | none => t

/-- Rust `text.split(sep)[1]`: the segment between the first occurrence of
`sep` and the following occurrence (or the end).  `str::split` splits at every
occurrence, so element 1 ends at the second occurrence; `parts.len() > 1` in
the source is equivalent to `containsSub sep text`. -/
def splitPart1 (sep t : Input) : Input :=
  let a := afterFirstSub sep t
  match firstSubIdx sep a with
  | some j => a.take j
  | none => a

/-- `fn extract_attestations`: scan paragraphs for `Attestation:`, classify the
modal strength of the (trimmed) split segment, record the paragraph's first
line as the claim. -/
def extract_attestations (blocks : List ContentBlock) : List Attestation :=
  blocks.foldl (fun attestations block =>
    match block with
    | .Paragraph text =>
      if containsSub "**Attestation:**".toList text
          || containsSub "Attestation:".toList text then
        if containsSub "Attestation:".toList text then
          let attestation_text := trim (splitPart1 "Attestation:".toList text)
          let requirement :=
            if "*Must*".toList.isPrefixOf attestation_text then "MUST".toList
            else if "*Should*".toList.isPrefixOf attestation_text then "SHOULD".toList
            else if "*Could*".toList.isPrefixOf attestation_text then "COULD".toList
            else "MUST".toList
          attestations ++ [⟨firstLine text, requirement, none⟩]
        else attestations
      else attestations
    | _ => attestations) []

/-- `fn section`: heading, ms0, zero or more content blocks (each followed by
ms0), attestations extracted from the blocks; `line_number` left 0 as in the
source. -/
def sectionP : Parser Section := do
  let hl ← heading
  _ ← multispace0
  let blocks ← many0 (terminatedP content_block multispace0)
  pure { heading := hl.2, level := hl.1, content := blocks,
         attestations := extract_attestations blocks, line_number := 0 }

/-- `fn document`: optional abstract, optional requires, zero or more
sections, optional refs, interleaved with `multispace0`; the remaining input
becomes `raw`. -/
def document : Parser A2mlDocument := do
  _ ← multispace0
  let abstract_text ← optP abstract_directive
  _ ← multispace0
  let requirements ← optP requires_directive
  _ ← multispace0
  let sections ← many0 sectionP
  _ ← multispace0
  let references ← optP refs_directive
  _ ← multispace0
  let raw ← peekRest
  pure { abstract_text := abstract_text, sections := sections,
         references := references.getD [], requirements := requirements.getD [],
         raw := raw }

/-- `fn parse_a2ml_string`: run `document`; on nom failure, build the
`Parse error at:` message from the first 50 characters of the error's input. -/
def parse_a2ml_string (content : Input) : Except PolicyError A2mlDocument :=
  match document content with
  | .ok (_, doc) => .ok doc
  | .error i => .error (.ParseError ("Parse error at: ".toList ++ i.take 50))

deriving instance DecidableEq for Except

-- ============================================================================
-- Pipeline stage functions: a normal form for `document`'s (total) stages,
-- used to state and prove facts about individual fields of the result.
-- ============================================================================

/-- The total function computed by `optP p`. -/
def runOpt (p : Parser α) (inp : Input) : Input × Option α :=
  match p inp with
  | .ok (i, a) => (i, some a)
  | .error _ => (inp, none)

/-- Remainder and value of the abstract stage of `document` on input `s`. -/
def docAbs (s : Input) : Input × Option Input :=
  runOpt abstract_directive (ltrim s)

/-- Remainder and value of the requires stage. -/
def docReq (s : Input) : Input × Option (List Input) :=
  runOpt requires_directive (ltrim (docAbs s).1)

/-- Remainder and value of the sections stage.  `many0 sectionP` is total
(proved below), so the `.error` default is unreachable. -/
def docSecs (s : Input) : Input × List Section :=
  match many0 sectionP (ltrim (docReq s).1) with
  | .ok (i, secs) => (i, secs)
  | .error _ => (ltrim (docReq s).1, [])

/-- Remainder and value of the references stage. -/
def docRefs (s : Input) : Input × Option (List Reference) :=
  runOpt refs_directive (ltrim (docSecs s).1)

/-- The final remainder of `document` on `s` (what becomes `raw`). -/
def docRest (s : Input) : Input := ltrim (docRefs s).1

-- ============================================================================
-- Specification-side definitions (used to state the claims; written from the
-- claims' words, to be compared with the source-derived parsers above)
-- ============================================================================

/-- Claim C3's notion of "a well-formed `@abstract: … @end` block exists
somewhere in the input": the input decomposes around a literal `@abstract:`
followed (later) by a literal `@end`. -/
def HasAbstractBlockSomewhere (s : Input) : Prop :=
  ∃ pre mid post, s = pre ++ "@abstract:".toList ++ mid ++ "@end".toList ++ post

/-- The amended C3 condition: after leading whitespace the input starts with
`@abstract:`, and `@end` occurs in what follows. -/
def hasAbstractBlockAtStart (s : Input) : Bool :=
  "@abstract:".toList.isPrefixOf (ltrim s)
    && containsSub "@end".toList ((ltrim s).drop "@abstract:".toList.length)

/-- The amended C3 value: the body text between the directive keyword and the
first `@end` sentinel, trimmed. -/
def abstractBodyOf (s : Input) : Input :=
  let body := (ltrim s).drop "@abstract:".toList.length
  trim (body.take ((firstSubIdx "@end".toList body).getD 0))

/-- Claim C5's classification: test whether the text after the first
`Attestation:` (trimmed, per the spec's "attestation body") begins with
`*Must*`, `*Should*`, `*Could*`, in that order; default `MUST`. -/
def classifyAfterFirst (text : Input) : Input :=
  let body := trim (afterFirstSub "Attestation:".toList text)
  if "*Must*".toList.isPrefixOf body then "MUST".toList
  else if "*Should*".toList.isPrefixOf body then "SHOULD".toList
  else if "*Could*".toList.isPrefixOf body then "COULD".toList
  else "MUST".toList

/-- Claim C5's description of the whole extractor: keep exactly the Paragraph
blocks containing `Attestation:`, in order; claim text is the paragraph's
first line; strength classified per `classifyAfterFirst`. -/
def attestationSpec (blocks : List ContentBlock) : List Attestation :=
  blocks.filterMap fun block =>
    match block with
    | .Paragraph text =>
      if containsSub "Attestation:".toList text then
        some ⟨firstLine text, classifyAfterFirst text, none⟩
      else none
    | _ => none

/-- Claim C6's URL heuristic, stated from the spec's words: if the text
contains `http://` or `https://`, the URL runs from the first `http` to the
next whitespace or `')'` (or the end), and the descriptive text is the trimmed
text before it; otherwise the whole text is descriptive and there is no URL.
Returns (descriptive text, optional URL). -/
def refSplitSpec (t : Input) : Input × Option Input :=
  if containsSub "http://".toList t || containsSub "https://".toList t then
    match firstSubIdx "http".toList t with
    | some start =>
      let url_part := t.drop start
      let url_end := (url_part.findIdx? (fun c => isWS c || c = ')')).getD url_part.length
      (trim (t.take start), some (url_part.take url_end))
    | none => (t, none)
  else (t, none)

-- ============================================================================
-- Combinator toolkit lemmas
-- ============================================================================

@[simp]
theorem bind_apply (p : Parser α) (f : α → Parser β) (inp : Input) :
    (p >>= f) inp =
      match p inp with
      | .ok (i, a) => f a i
      | .error e => .error e := rfl

@[simp]
theorem pure_apply (a : α) (inp : Input) : (pure a : Parser α) inp = .ok (inp, a) := rfl

/-- A parser whose remaining input is always a suffix of its input. -/
def SuffixP (p : Parser α) : Prop :=
  ∀ inp i a, p inp = .ok (i, a) → i <:+ inp

/-- A parser that strictly consumes input whenever it succeeds. -/
def StrictP (p : Parser α) : Prop :=
  ∀ inp i a, p inp = .ok (i, a) → i.length < inp.length

/-- A parser that succeeds on every input. -/
def TotalP (p : Parser α) : Prop :=
  ∀ inp, ∃ i a, p inp = .ok (i, a)

theorem suffixP_bind {p : Parser α} {f : α → Parser β}
    (hp : SuffixP p) (hf : ∀ a, SuffixP (f a)) : SuffixP (p >>= f) := by
  intro inp i b h
  simp only [bind_apply] at h
  cases hq : p inp with
  | ok r =>
    obtain ⟨i1, a⟩ := r
    rw [hq] at h
    exact (hf a i1 i b h).trans (hp inp i1 a hq)
  | error e => rw [hq] at h; exact absurd h (by simp)

theorem suffixP_pure (a : α) : SuffixP (pure a : Parser α) := by
  intro inp i b h
  simp only [pure_apply, Except.ok.injEq, Prod.mk.injEq] at h
  exact h.1 ▸ List.suffix_rfl

theorem strictP_bind_left {p : Parser α} {f : α → Parser β}
    (hp : StrictP p) (hf : ∀ a, SuffixP (f a)) : StrictP (p >>= f) := by
  intro inp i b h
  simp only [bind_apply] at h
  cases hq : p inp with
  | ok r =>
    obtain ⟨i1, a⟩ := r
    rw [hq] at h
    exact lt_of_le_of_lt ((hf a i1 i b h).length_le) (hp inp i1 a hq)
  | error e => rw [hq] at h; exact absurd h (by simp)

theorem strictP_bind_right {p : Parser α} {f : α → Parser β}
    (hp : SuffixP p) (hf : ∀ a, StrictP (f a)) : StrictP (p >>= f) := by
  intro inp i b h
  simp only [bind_apply] at h
  cases hq : p inp with
  | ok r =>
    obtain ⟨i1, a⟩ := r
    rw [hq] at h
    exact lt_of_lt_of_le (hf a i1 i b h) ((hp inp i1 a hq).length_le)
  | error e => rw [hq] at h; exact absurd h (by simp)

theorem totalP_bind {p : Parser α} {f : α → Parser β}
    (hp : TotalP p) (hf : ∀ a, TotalP (f a)) : TotalP (p >>= f) := by
  intro inp
  obtain ⟨i1, a, h1⟩ := hp inp
  obtain ⟨i2, b, h2⟩ := hf a i1
  exact ⟨i2, b, by simp [h1, h2]⟩

theorem suffix_tagP (t : Input) : SuffixP (tagP t) := by
  intro inp i a h
  unfold tagP at h
  split at h
  · simp only [Except.ok.injEq, Prod.mk.injEq] at h
    exact h.1 ▸ List.drop_suffix _ _
  · exact absurd h (by simp)

theorem strict_tagP {t : Input} (ht : t ≠ []) : StrictP (tagP t) := by
  intro inp i a h
  unfold tagP at h
  split at h
  next hpre =>
    simp only [Except.ok.injEq, Prod.mk.injEq] at h
    have hle : t.length ≤ inp.length :=
      (List.isPrefixOf_iff_prefix.mp hpre).length_le
    have ht' : 0 < t.length := List.length_pos.mpr ht
    rw [← h.1]
    simp only [List.length_drop]
    omega
  · exact absurd h (by simp)

theorem suffix_charP (c : Char) : SuffixP (charP c) := by
  intro inp i a h
  cases inp with
  | nil => exact absurd h (by simp [charP])
  | cons c' rest =>
    by_cases hc : c' = c
    · simp only [charP, hc, if_pos, Except.ok.injEq, Prod.mk.injEq, if_true] at h
      exact h.1 ▸ List.suffix_cons c' rest
    · simp [charP, hc] at h

theorem strict_charP (c : Char) : StrictP (charP c) := by
  intro inp i a h
  cases inp with
  | nil => exact absurd h (by simp [charP])
  | cons c' rest =>
    by_cases hc : c' = c
    · simp only [charP, hc, if_pos, Except.ok.injEq, Prod.mk.injEq, if_true] at h
      rw [← h.1]; simp
    · simp [charP, hc] at h

theorem suffix_takeWhileP (q : Char → Bool) : SuffixP (takeWhileP q) := by
  intro inp i a h
  unfold takeWhileP at h
  simp only [Except.ok.injEq, Prod.mk.injEq] at h
  exact h.1 ▸ List.dropWhile_suffix q

theorem total_takeWhileP (q : Char → Bool) : TotalP (takeWhileP q) := by
  intro inp
  exact ⟨inp.dropWhile q, inp.takeWhile q, rfl⟩

theorem suffix_takeWhile1P (q : Char → Bool) : SuffixP (takeWhile1P q) := by
  intro inp i a h
  unfold takeWhile1P at h
  split at h
  · exact absurd h (by simp)
  · simp only [Except.ok.injEq, Prod.mk.injEq] at h
    exact h.1 ▸ List.dropWhile_suffix q

theorem strict_takeWhile1P (q : Char → Bool) : StrictP (takeWhile1P q) := by
  intro inp i a h
  unfold takeWhile1P at h
  cases htk : inp.takeWhile q with
  | nil => rw [htk] at h; exact absurd h (by simp)
  | cons c rest =>
    simp only [htk, Except.ok.injEq, Prod.mk.injEq] at h
    have hlen := congrArg List.length (List.takeWhile_append_dropWhile q inp)
    rw [List.length_append, htk] at hlen
    simp only [List.length_cons] at hlen
    rw [← h.1]
    omega

theorem suffix_lineEnding : SuffixP lineEnding := by
  intro inp i a h
  unfold lineEnding at h
  split at h
  · simp only [Except.ok.injEq, Prod.mk.injEq] at h
    exact h.1 ▸ List.suffix_cons _ _
  · simp only [Except.ok.injEq, Prod.mk.injEq] at h
    exact h.1 ▸ ((List.suffix_cons _ _).trans (List.suffix_cons _ _))
  · exact absurd h (by simp)

theorem strict_lineEnding : StrictP lineEnding := by
  intro inp i a h
  unfold lineEnding at h
  split at h
  · simp only [Except.ok.injEq, Prod.mk.injEq] at h
    rw [← h.1]; simp only [List.length_cons]; omega
  · simp only [Except.ok.injEq, Prod.mk.injEq] at h
    rw [← h.1]; simp only [List.length_cons]; omega
  · exact absurd h (by simp)

theorem suffix_notLineEnding : SuffixP notLineEnding := by
  intro inp i a h
  unfold notLineEnding at h
  split at h
  next heq =>
    simp only [Except.ok.injEq, Prod.mk.injEq] at h
    exact h.1 ▸ heq ▸ List.dropWhile_suffix nlePred
  next => exact absurd h (by simp)
  next =>
    simp only [Except.ok.injEq, Prod.mk.injEq] at h
    exact h.1 ▸ List.dropWhile_suffix nlePred

theorem suffix_takeUntilP (t : Input) : SuffixP (takeUntilP t) := by
  intro inp i a h
  unfold takeUntilP at h
  split at h
  · simp only [Except.ok.injEq, Prod.mk.injEq] at h
    exact h.1 ▸ List.drop_suffix _ _
  · exact absurd h (by simp)

theorem suffix_optP {p : Parser α} (hp : SuffixP p) : SuffixP (optP p) := by
  intro inp i a h
  unfold optP at h
  cases hq : p inp with
  | ok r =>
    obtain ⟨i1, a1⟩ := r
    simp only [hq, Except.ok.injEq, Prod.mk.injEq] at h
    exact h.1 ▸ hp inp i1 a1 hq
  | error e =>
    simp only [hq, Except.ok.injEq, Prod.mk.injEq] at h
    exact h.1 ▸ List.suffix_rfl

theorem total_optP (p : Parser α) : TotalP (optP p) := by
  intro inp
  unfold optP
  cases h : p inp with
  | ok r => exact ⟨r.1, some r.2, by simp [h]⟩
  | error e => exact ⟨inp, none, by simp [h]⟩

theorem suffix_orElseP {p q : Parser α} (hp : SuffixP p) (hq : SuffixP q) :
    SuffixP (orElseP p q) := by
  intro inp i a h
  unfold orElseP at h
  cases hpp : p inp with
  | ok r =>
    obtain ⟨i1, a1⟩ := r
    simp only [hpp, Except.ok.injEq, Prod.mk.injEq] at h
    exact h.1 ▸ hp inp i1 a1 hpp
  | error e =>
    simp only [hpp] at h
    exact hq inp i a h

theorem strict_orElseP {p q : Parser α} (hp : StrictP p) (hq : StrictP q) :
    StrictP (orElseP p q) := by
  intro inp i a h
  unfold orElseP at h
  cases hpp : p inp with
  | ok r =>
    obtain ⟨i1, a1⟩ := r
    simp only [hpp, Except.ok.injEq, Prod.mk.injEq] at h
    exact h.1 ▸ hp inp i1 a1 hpp
  | error e =>
    simp only [hpp] at h
    exact hq inp i a h

/-- One-step unfolding of the `many0`/`many1` loop body. -/
theorem many0Aux_succ (p : Parser α) (n : Nat) (inp : Input) :
    many0Aux p (n + 1) inp =
      match p inp with
      | .error _ => .ok (inp, [])
      | .ok (i, a) =>
        if i = inp then .error inp
        else
          match many0Aux p n i with
          | .ok (i2, as) => .ok (i2, a :: as)
          | .error e => .error e := rfl

theorem suffix_many0Aux {p : Parser α} (hp : SuffixP p) :
    ∀ fuel, SuffixP (many0Aux p fuel) := by
  intro fuel
  induction fuel with
  | zero => intro inp i a h; exact absurd h (by simp [many0Aux])
  | succ n ih =>
    intro inp i as h
    rw [many0Aux_succ] at h
    cases hq : p inp with
    | error e =>
      simp only [hq, Except.ok.injEq, Prod.mk.injEq] at h
      exact h.1 ▸ List.suffix_rfl
    | ok r =>
      obtain ⟨i1, a1⟩ := r
      simp only [hq] at h
      by_cases hii : i1 = inp
      · rw [if_pos hii] at h; exact absurd h (by simp)
      · rw [if_neg hii] at h
        cases hr : many0Aux p n i1 with
        | error e => simp only [hr] at h; exact absurd h (by simp)
        | ok r2 =>
          obtain ⟨i2, as2⟩ := r2
          simp only [hr, Except.ok.injEq, Prod.mk.injEq] at h
          exact h.1 ▸ (ih i1 i2 as2 hr).trans (hp inp i1 a1 hq)

theorem suffix_many0 {p : Parser α} (hp : SuffixP p) : SuffixP (many0 p) := by
  intro inp i as h
  exact suffix_many0Aux hp _ inp i as h

theorem suffix_many1 {p : Parser α} (hp : SuffixP p) : SuffixP (many1 p) := by
  intro inp i as h
  unfold many1 at h
  cases hq : p inp with
  | error e => simp only [hq] at h; exact absurd h (by simp)
  | ok r =>
    obtain ⟨i1, a1⟩ := r
    simp only [hq] at h
    cases hr : many0Aux p (i1.length + 1) i1 with
    | error e => simp only [hr] at h; exact absurd h (by simp)
    | ok r2 =>
      obtain ⟨i2, as2⟩ := r2
      simp only [hr, Except.ok.injEq, Prod.mk.injEq] at h
      exact h.1 ▸ (suffix_many0Aux hp _ i1 i2 as2 hr).trans (hp inp i1 a1 hq)

theorem strict_many1 {p : Parser α} (hsfx : SuffixP p) (hp : StrictP p) :
    StrictP (many1 p) := by
  intro inp i as h
  unfold many1 at h
  cases hq : p inp with
  | error e => simp only [hq] at h; exact absurd h (by simp)
  | ok r =>
    obtain ⟨i1, a1⟩ := r
    simp only [hq] at h
    cases hr : many0Aux p (i1.length + 1) i1 with
    | error e => simp only [hr] at h; exact absurd h (by simp)
    | ok r2 =>
      obtain ⟨i2, as2⟩ := r2
      simp only [hr, Except.ok.injEq, Prod.mk.injEq] at h
      have h1 := (suffix_many0Aux hsfx _ i1 i2 as2 hr).length_le
      have h2 := hp inp i1 a1 hq
      rw [← h.1]
      omega

/-- With a strictly-consuming inner parser, the loop's fuel `inp.length + 1`
never runs out and the no-progress check never fires: the loop always
succeeds.  This is exactly nom's (fuel-free) `many0` behaviour. -/
theorem many0Aux_total {p : Parser α} (hp : StrictP p) :
    ∀ fuel inp, inp.length < fuel → ∃ i as, many0Aux p fuel inp = .ok (i, as) := by
  intro fuel
  induction fuel with
  | zero => intro inp hlen; omega
  | succ n ih =>
    intro inp hlen
    rw [many0Aux_succ]
    cases hq : p inp with
    | error e => exact ⟨inp, [], rfl⟩
    | ok r =>
      obtain ⟨i1, a1⟩ := r
      have hlt := hp inp i1 a1 hq
      have hne : i1 ≠ inp := fun hc => by rw [hc] at hlt; omega
      obtain ⟨i2, as, hrec⟩ := ih i1 (by omega)
      exact ⟨i2, a1 :: as, by simp only [if_neg hne, hrec]⟩

theorem total_many0 {p : Parser α} (hp : StrictP p) : TotalP (many0 p) := by
  intro inp
  obtain ⟨i, as, h⟩ := many0Aux_total hp (inp.length + 1) inp (by omega)
  exact ⟨i, as, h⟩

/-- With a strictly-consuming inner parser, `many1` succeeds as soon as the
first iteration does, returning that first value at the head. -/
theorem many1_ok {p : Parser α} (hp : StrictP p)
    {inp i1 : Input} {a : α} (h : p inp = .ok (i1, a)) :
    ∃ i2 as, many1 p inp = .ok (i2, a :: as) := by
  obtain ⟨i2, as, hrec⟩ := many0Aux_total hp (i1.length + 1) i1 (by omega)
  exact ⟨i2, as, by unfold many1; simp only [h, hrec]⟩

/-- Every element produced by the `many0` loop was produced by the inner
parser on some intermediate input. -/
theorem many0Aux_mem {p : Parser α} :
    ∀ fuel inp i as, many0Aux p fuel inp = .ok (i, as) →
      ∀ a ∈ as, ∃ j k, p j = .ok (k, a) := by
  intro fuel
  induction fuel with
  | zero => intro inp i as h; exact absurd h (by simp [many0Aux])
  | succ n ih =>
    intro inp i as h a ha
    rw [many0Aux_succ] at h
    cases hq : p inp with
    | error e =>
      simp only [hq, Except.ok.injEq, Prod.mk.injEq] at h
      rw [← h.2] at ha
      exact absurd ha (List.not_mem_nil a)
    | ok r =>
      obtain ⟨i1, a1⟩ := r
      simp only [hq] at h
      by_cases hii : i1 = inp
      · rw [if_pos hii] at h; exact absurd h (by simp)
      · rw [if_neg hii] at h
        cases hr : many0Aux p n i1 with
        | error e => simp only [hr] at h; exact absurd h (by simp)
        | ok r2 =>
          obtain ⟨i2, as2⟩ := r2
          simp only [hr, Except.ok.injEq, Prod.mk.injEq] at h
          rw [← h.2] at ha
          rcases List.mem_cons.mp ha with hhd | htl
          · exact ⟨inp, i1, by rw [hq, hhd]⟩
          · exact ih i1 i2 as2 hr a htl

theorem many1_mem {p : Parser α} {inp i : Input} {as : List α}
    (h : many1 p inp = .ok (i, as)) :
    ∀ a ∈ as, ∃ j k, p j = .ok (k, a) := by
  intro a ha
  unfold many1 at h
  cases hq : p inp with
  | error e => simp only [hq] at h; exact absurd h (by simp)
  | ok r =>
    obtain ⟨i1, a1⟩ := r
    simp only [hq] at h
    cases hr : many0Aux p (i1.length + 1) i1 with
    | error e => simp only [hr] at h; exact absurd h (by simp)
    | ok r2 =>
      obtain ⟨i2, as2⟩ := r2
      simp only [hr, Except.ok.injEq, Prod.mk.injEq] at h
      rw [← h.2] at ha
      rcases List.mem_cons.mp ha with hhd | htl
      · exact ⟨inp, i1, by rw [hq, hhd]⟩
      · exact many0Aux_mem _ i1 i2 as2 hr a htl

theorem suffix_terminatedP {p : Parser α} {q : Parser β}
    (hp : SuffixP p) (hq : SuffixP q) : SuffixP (terminatedP p q) :=
  suffixP_bind hp fun a => suffixP_bind hq fun _ => suffixP_pure a

theorem strict_terminatedP_right {p : Parser α} {q : Parser β}
    (hp : SuffixP p) (hq : StrictP q) : StrictP (terminatedP p q) :=
  strictP_bind_right hp fun a => strictP_bind_left hq fun _ => suffixP_pure a

theorem suffix_precededP {p : Parser α} {q : Parser β}
    (hp : SuffixP p) (hq : SuffixP q) : SuffixP (precededP p q) :=
  suffixP_bind hp fun _ => hq

theorem suffix_mapP {p : Parser α} (f : α → β) (hp : SuffixP p) :
    SuffixP (mapP p f) :=
  suffixP_bind hp fun a => suffixP_pure (f a)

theorem suffix_peekRest : SuffixP peekRest := by
  intro inp i a h
  unfold peekRest at h
  simp only [Except.ok.injEq, Prod.mk.injEq] at h
  exact h.1 ▸ List.suffix_rfl

theorem total_peekRest : TotalP peekRest := fun inp => ⟨inp, inp, rfl⟩

-- Suffix / strictness facts for the named grammar rules.

theorem suffix_abstract_directive : SuffixP abstract_directive := by
  unfold abstract_directive
  exact suffixP_bind (suffix_tagP _) fun _ =>
    suffixP_bind (suffix_takeWhileP _) fun _ =>
    suffixP_bind (suffix_takeUntilP _) fun content =>
    suffixP_bind (suffix_tagP _) fun _ =>
    suffixP_bind (suffix_takeWhileP _) fun _ => suffixP_pure _

/-- The `- <item>` line parser inside `requires_directive`. -/
theorem suffix_requires_item :
    SuffixP (terminatedP
      (precededP (do _ ← charP '-'; space0) (mapP notLineEnding trim))
      lineEnding) :=
  suffix_terminatedP
    (suffix_precededP
      (suffixP_bind (suffix_charP '-') fun _ => suffix_takeWhileP _)
      (suffix_mapP trim suffix_notLineEnding))
    suffix_lineEnding

theorem strict_requires_item :
    StrictP (terminatedP
      (precededP (do _ ← charP '-'; space0) (mapP notLineEnding trim))
      lineEnding) :=
  strict_terminatedP_right
    (suffix_precededP
      (suffixP_bind (suffix_charP '-') fun _ => suffix_takeWhileP _)
      (suffix_mapP trim suffix_notLineEnding))
    strict_lineEnding

theorem suffix_requires_directive : SuffixP requires_directive := by
  unfold requires_directive
  exact suffixP_bind (suffix_tagP _) fun _ =>
    suffixP_bind (suffix_takeWhileP _) fun _ =>
    suffixP_bind (suffix_many1 suffix_requires_item) fun items =>
    suffixP_bind (suffix_tagP _) fun _ =>
    suffixP_bind (suffix_takeWhileP _) fun _ => suffixP_pure _

theorem suffix_reference : SuffixP reference := by
  unfold reference
  refine suffixP_bind (suffix_charP _) fun _ => ?_
  refine suffixP_bind (suffix_takeWhile1P _) fun idStr => ?_
  refine suffixP_bind (suffix_charP _) fun _ => ?_
  refine suffixP_bind (suffix_takeWhileP _) fun _ => ?_
  refine suffixP_bind suffix_notLineEnding fun text => ?_
  refine suffixP_bind suffix_lineEnding fun _ => ?_
  dsimp only
  split
  · split
    · exact suffixP_pure _
    · exact suffixP_pure _
  · exact suffixP_pure _

theorem strict_reference : StrictP reference := by
  unfold reference
  refine strictP_bind_left (strict_charP _) fun _ => ?_
  refine suffixP_bind (suffix_takeWhile1P _) fun idStr => ?_
  refine suffixP_bind (suffix_charP _) fun _ => ?_
  refine suffixP_bind (suffix_takeWhileP _) fun _ => ?_
  refine suffixP_bind suffix_notLineEnding fun text => ?_
  refine suffixP_bind suffix_lineEnding fun _ => ?_
  dsimp only
  split
  · split
    · exact suffixP_pure _
    · exact suffixP_pure _
  · exact suffixP_pure _

theorem suffix_refs_directive : SuffixP refs_directive := by
  unfold refs_directive
  exact suffixP_bind (suffix_tagP _) fun _ =>
    suffixP_bind (suffix_takeWhileP _) fun _ =>
    suffixP_bind (suffix_many1 suffix_reference) fun refs =>
    suffixP_bind (suffix_tagP _) fun _ =>
    suffixP_bind (suffix_takeWhileP _) fun _ => suffixP_pure _

theorem suffix_heading : SuffixP heading := by
  unfold heading
  exact suffixP_bind (suffix_takeWhile1P _) fun _ =>
    suffixP_bind (suffix_takeWhile1P _) fun _ =>
    suffixP_bind suffix_notLineEnding fun _ =>
    suffixP_bind suffix_lineEnding fun _ => suffixP_pure _

theorem strict_heading : StrictP heading := by
  unfold heading
  exact strictP_bind_left (strict_takeWhile1P _) fun _ =>
    suffixP_bind (suffix_takeWhile1P _) fun _ =>
    suffixP_bind suffix_notLineEnding fun _ =>
    suffixP_bind suffix_lineEnding fun _ => suffixP_pure _

theorem suffix_paragraph_line : SuffixP paragraph_line := by
  intro inp i a h
  unfold paragraph_line at h
  split at h
  · exact suffix_notLineEnding inp i a h
  · exact absurd h (by simp)

theorem suffix_paragraph_item : SuffixP (terminatedP paragraph_line lineEnding) :=
  suffix_terminatedP suffix_paragraph_line suffix_lineEnding

theorem strict_paragraph_item : StrictP (terminatedP paragraph_line lineEnding) :=
  strict_terminatedP_right suffix_paragraph_line strict_lineEnding

theorem suffix_paragraph : SuffixP paragraph := by
  intro inp i a h
  unfold paragraph at h
  cases hq : many1 (terminatedP paragraph_line lineEnding) inp with
  | error e => simp only [hq] at h; exact absurd h (by simp)
  | ok r =>
    obtain ⟨i1, lines⟩ := r
    simp only [hq] at h
    split at h
    · exact absurd h (by simp)
    · simp only [Except.ok.injEq, Prod.mk.injEq] at h
      exact h.1 ▸ suffix_many1 suffix_paragraph_item inp i1 lines hq

theorem strict_paragraph : StrictP paragraph := by
  intro inp i a h
  unfold paragraph at h
  cases hq : many1 (terminatedP paragraph_line lineEnding) inp with
  | error e => simp only [hq] at h; exact absurd h (by simp)
  | ok r =>
    obtain ⟨i1, lines⟩ := r
    simp only [hq] at h
    split at h
    · exact absurd h (by simp)
    · simp only [Except.ok.injEq, Prod.mk.injEq] at h
      exact h.1 ▸ strict_many1 suffix_paragraph_item strict_paragraph_item inp i1 lines hq

theorem suffix_list_item : SuffixP list_item := by
  unfold list_item
  exact suffixP_bind (suffix_charP _) fun _ =>
    suffixP_bind (suffix_takeWhile1P _) fun _ =>
    suffixP_bind suffix_notLineEnding fun _ =>
    suffixP_bind suffix_lineEnding fun _ => suffixP_pure _

theorem strict_list_item : StrictP list_item := by
  unfold list_item
  exact strictP_bind_left (strict_charP _) fun _ =>
    suffixP_bind (suffix_takeWhile1P _) fun _ =>
    suffixP_bind suffix_notLineEnding fun _ =>
    suffixP_bind suffix_lineEnding fun _ => suffixP_pure _

theorem suffix_bullet_list : SuffixP bullet_list := by
  unfold bullet_list
  exact suffixP_bind (suffix_many1 suffix_list_item) fun _ => suffixP_pure _

theorem strict_bullet_list : StrictP bullet_list := by
  unfold bullet_list
  exact strictP_bind_left (strict_many1 suffix_list_item strict_list_item) fun _ =>
    suffixP_pure _

theorem suffix_horizontal_rule : SuffixP horizontal_rule := by
  unfold horizontal_rule
  exact suffixP_bind (suffix_tagP _) fun _ =>
    suffixP_bind suffix_lineEnding fun _ => suffixP_pure _

theorem strict_horizontal_rule : StrictP horizontal_rule := by
  unfold horizontal_rule
  exact strictP_bind_left (strict_tagP (by decide)) fun _ =>
    suffixP_bind suffix_lineEnding fun _ => suffixP_pure _

theorem suffix_code_block : SuffixP code_block := by
  unfold code_block
  exact suffixP_bind (suffix_tagP _) fun _ =>
    suffixP_bind (suffix_optP (suffix_mapP trim suffix_notLineEnding)) fun _ =>
    suffixP_bind suffix_lineEnding fun _ =>
    suffixP_bind (suffix_takeUntilP _) fun _ =>
    suffixP_bind (suffix_tagP _) fun _ =>
    suffixP_bind (suffix_optP suffix_lineEnding) fun _ => suffixP_pure _

theorem strict_code_block : StrictP code_block := by
  unfold code_block
  exact strictP_bind_left (strict_tagP (by decide)) fun _ =>
    suffixP_bind (suffix_optP (suffix_mapP trim suffix_notLineEnding)) fun _ =>
    suffixP_bind suffix_lineEnding fun _ =>
    suffixP_bind (suffix_takeUntilP _) fun _ =>
    suffixP_bind (suffix_tagP _) fun _ =>
    suffixP_bind (suffix_optP suffix_lineEnding) fun _ => suffixP_pure _

theorem suffix_content_block : SuffixP content_block := by
  unfold content_block
  exact suffix_orElseP suffix_horizontal_rule
    (suffix_orElseP suffix_bullet_list
      (suffix_orElseP suffix_code_block suffix_paragraph))

theorem strict_content_block : StrictP content_block := by
  unfold content_block
  exact strict_orElseP strict_horizontal_rule
    (strict_orElseP strict_bullet_list
      (strict_orElseP strict_code_block strict_paragraph))

theorem suffix_section_item : SuffixP (terminatedP content_block multispace0) :=
  suffix_terminatedP suffix_content_block (suffix_takeWhileP _)

theorem strict_section_item : StrictP (terminatedP content_block multispace0) := by
  intro inp i a h
  unfold terminatedP at h
  simp only [bind_apply] at h
  cases hq : content_block inp with
  | error e => rw [hq] at h; exact absurd h (by simp)
  | ok r =>
    obtain ⟨i1, a1⟩ := r
    rw [hq] at h
    simp only [bind_apply] at h
    cases hm : multispace0 i1 with
    | error e => rw [hm] at h; exact absurd h (by simp)
    | ok r2 =>
      obtain ⟨i2, a2⟩ := r2
      rw [hm] at h
      simp only [pure_apply, Except.ok.injEq, Prod.mk.injEq] at h
      have h1 := strict_content_block inp i1 a1 hq
      have h2 := (suffix_takeWhileP isWS i1 i2 a2 hm).length_le
      rw [← h.1]
      omega

theorem suffix_sectionP : SuffixP sectionP := by
  unfold sectionP
  exact suffixP_bind suffix_heading fun _ =>
    suffixP_bind (suffix_takeWhileP _) fun _ =>
    suffixP_bind (suffix_many0 suffix_section_item) fun _ => suffixP_pure _

theorem strict_sectionP : StrictP sectionP := by
  unfold sectionP
  exact strictP_bind_left strict_heading fun _ =>
    suffixP_bind (suffix_takeWhileP _) fun _ =>
    suffixP_bind (suffix_many0 suffix_section_item) fun _ => suffixP_pure _

theorem suffix_document : SuffixP document := by
  unfold document
  exact suffixP_bind (suffix_takeWhileP _) fun _ =>
    suffixP_bind (suffix_optP suffix_abstract_directive) fun _ =>
    suffixP_bind (suffix_takeWhileP _) fun _ =>
    suffixP_bind (suffix_optP suffix_requires_directive) fun _ =>
    suffixP_bind (suffix_takeWhileP _) fun _ =>
    suffixP_bind (suffix_many0 suffix_sectionP) fun _ =>
    suffixP_bind (suffix_takeWhileP _) fun _ =>
    suffixP_bind (suffix_optP suffix_refs_directive) fun _ =>
    suffixP_bind (suffix_takeWhileP _) fun _ =>
    suffixP_bind suffix_peekRest fun _ => suffixP_pure _


theorem totalP_pure (a : α) : TotalP (pure a : Parser α) := fun inp => ⟨inp, a, rfl⟩

theorem optP_eq (p : Parser α) (inp : Input) :
    optP p inp = .ok ((runOpt p inp).1, (runOpt p inp).2) := by
  unfold optP runOpt
  cases p inp with
  | ok r => rfl
  | error e => rfl

theorem ms0_eq (inp : Input) :
    multispace0 inp = .ok (ltrim inp, inp.takeWhile isWS) := rfl

theorem peekRest_eq (inp : Input) : peekRest inp = .ok (inp, inp) := rfl

theorem docSecs_eq (s : Input) :
    many0 sectionP (ltrim (docReq s).1) = .ok ((docSecs s).1, (docSecs s).2) := by
  obtain ⟨i, secs, h⟩ := total_many0 strict_sectionP (ltrim (docReq s).1)
  unfold docSecs
  rw [h]

/-- Normal form of `document`: it always succeeds, and its stages are the
total stage functions `docAbs`, `docReq`, `docSecs`, `docRefs`, `docRest`. -/
theorem document_eq (s : Input) :
    document s = .ok (docRest s,
      { abstract_text := (docAbs s).2,
        sections := (docSecs s).2,
        references := (docRefs s).2.getD [],
        requirements := (docReq s).2.getD [],
        raw := docRest s }) := by
  unfold document
  simp only [bind_apply, pure_apply, ms0_eq, optP_eq, peekRest_eq]
  rw [show ltrim (runOpt requires_directive (ltrim (runOpt abstract_directive (ltrim s)).1)).1
      = ltrim (docReq s).1 from rfl,
    docSecs_eq]
  rfl

-- ============================================================================
-- Symbolic evaluation helpers
-- ============================================================================

theorem tagP_append (t s : Input) : tagP t (t ++ s) = .ok (s, ()) := by
  unfold tagP
  rw [if_pos (List.isPrefixOf_iff_prefix.mpr (List.prefix_append t s)), List.drop_left]

theorem charP_cons_self (c : Char) (x : Input) : charP c (c :: x) = .ok (x, c) := by
  simp [charP]

theorem dropWhile_append_all {q : Char → Bool} {l : Input}
    (hall : ∀ c ∈ l, q c = true) (y : Input) :
    (l ++ y).dropWhile q = y.dropWhile q := by
  rw [List.dropWhile_append]
  have : l.dropWhile q = [] := by
    rw [List.dropWhile_eq_nil_iff]; exact fun x hx => hall x hx
  rw [this]
  rfl

theorem takeWhile_append_all {q : Char → Bool} {l : Input}
    (hall : ∀ c ∈ l, q c = true) (y : Input) :
    (l ++ y).takeWhile q = l ++ y.takeWhile q := by
  rw [List.takeWhile_append]
  have h : l.takeWhile q = l := by
    rw [List.takeWhile_eq_self_iff]; exact fun x hx => hall x hx
  rw [if_pos (by rw [h])]

theorem dropWhile_dropWhile_of_imp {p q : Char → Bool}
    (himp : ∀ c, p c = true → q c = true) :
    ∀ l : Input, (l.dropWhile p).dropWhile q = l.dropWhile q := by
  intro l
  induction l with
  | nil => rfl
  | cons c t ih =>
    by_cases hp : p c
    · rw [List.dropWhile_cons, if_pos hp, ih, List.dropWhile_cons, if_pos (himp c hp)]
    · rw [List.dropWhile_cons, if_neg hp]

theorem isSP_imp_isWS : ∀ c, isSP c = true → isWS c = true := by
  intro c hc
  simp only [isSP, Bool.or_eq_true, decide_eq_true_eq] at hc
  rcases hc with h | h <;> simp [isWS, h]

theorem trim_dropWhile_isSP (l : Input) : trim (l.dropWhile isSP) = trim l := by
  unfold trim ltrim
  rw [dropWhile_dropWhile_of_imp isSP_imp_isWS]

theorem notLineEnding_append_nl {l : Input}
    (ha : ∀ c ∈ l, nlePred c = true) (y : Input) :
    notLineEnding (l ++ '\n' :: y) = .ok ('\n' :: y, l) := by
  unfold notLineEnding
  have hd : (l ++ '\n' :: y).dropWhile nlePred = '\n' :: y := by
    rw [dropWhile_append_all ha]; rfl
  have ht : (l ++ '\n' :: y).takeWhile nlePred = l := by
    rw [takeWhile_append_all ha]; simp [List.takeWhile_cons, nlePred]
  rw [hd, ht]
  rfl

theorem takeWhile1P_append {q : Char → Bool} {l : Input} {c : Char}
    (hall : ∀ x ∈ l, q x = true) (hne : l ≠ []) (hstop : q c = false) (y : Input) :
    takeWhile1P q (l ++ c :: y) = .ok (c :: y, l) := by
  unfold takeWhile1P
  have ht : (l ++ c :: y).takeWhile q = l := by
    rw [takeWhile_append_all hall, List.takeWhile_cons, hstop]
    simp
  have hd : (l ++ c :: y).dropWhile q = c :: y := by
    rw [dropWhile_append_all hall, List.dropWhile_cons, hstop]
    simp
  rw [ht, hd]
  cases hl : l with
  | nil => exact absurd hl hne
  | cons a t => rfl

-- ============================================================================
-- Shape and inversion lemmas for content blocks
-- ============================================================================

theorem horizontal_rule_shape {inp i : Input} {b : ContentBlock}
    (h : horizontal_rule inp = .ok (i, b)) : b = .HorizontalRule := by
  unfold horizontal_rule at h
  simp only [bind_apply, pure_apply] at h
  cases h1 : tagP "---".toList inp with
  | error e => simp only [h1] at h; exact absurd h (by simp)
  | ok r =>
    obtain ⟨i1, u⟩ := r
    simp only [h1] at h
    cases h2 : lineEnding i1 with
    | error e => simp only [h2] at h; exact absurd h (by simp)
    | ok r2 =>
      obtain ⟨i2, v⟩ := r2
      simp only [h2, Except.ok.injEq, Prod.mk.injEq] at h
      exact h.2.symm

theorem bullet_list_shape {inp i : Input} {b : ContentBlock}
    (h : bullet_list inp = .ok (i, b)) : ∃ items, b = .BulletList items := by
  unfold bullet_list at h
  simp only [bind_apply, pure_apply] at h
  cases h1 : many1 list_item inp with
  | error e => simp only [h1] at h; exact absurd h (by simp)
  | ok r =>
    obtain ⟨i1, items⟩ := r
    simp only [h1, Except.ok.injEq, Prod.mk.injEq] at h
    exact ⟨items, h.2.symm⟩

theorem code_block_shape {inp i : Input} {b : ContentBlock}
    (h : code_block inp = .ok (i, b)) :
    ∃ langOpt code, b = .CodeBlock langOpt code := by
  unfold code_block at h
  simp only [bind_apply, pure_apply] at h
  cases h1 : tagP "```".toList inp with
  | error e => simp only [h1] at h; exact absurd h (by simp)
  | ok r1 =>
    obtain ⟨i1, u1⟩ := r1
    simp only [h1] at h
    cases h2 : optP (mapP notLineEnding trim) i1 with
    | error e => simp only [h2] at h; exact absurd h (by simp)
    | ok r2 =>
      obtain ⟨i2, langOpt⟩ := r2
      simp only [h2] at h
      cases h3 : lineEnding i2 with
      | error e => simp only [h3] at h; exact absurd h (by simp)
      | ok r3 =>
        obtain ⟨i3, u3⟩ := r3
        simp only [h3] at h
        cases h4 : takeUntilP "```".toList i3 with
        | error e => simp only [h4] at h; exact absurd h (by simp)
        | ok r4 =>
          obtain ⟨i4, code⟩ := r4
          simp only [h4] at h
          cases h5 : tagP "```".toList i4 with
          | error e => simp only [h5] at h; exact absurd h (by simp)
          | ok r5 =>
            obtain ⟨i5, u5⟩ := r5
            simp only [h5] at h
            cases h6 : optP lineEnding i5 with
            | error e => simp only [h6] at h; exact absurd h (by simp)
            | ok r6 =>
              obtain ⟨i6, u6⟩ := r6
              simp only [h6, Except.ok.injEq, Prod.mk.injEq] at h
              exact ⟨langOpt, code, h.2.symm⟩

theorem paragraph_shape {inp i : Input} {b : ContentBlock}
    (h : paragraph inp = .ok (i, b)) : ∃ t, b = .Paragraph t ∧ t ≠ [] := by
  unfold paragraph at h
  cases h1 : many1 (terminatedP paragraph_line lineEnding) inp with
  | error e => simp only [h1] at h; exact absurd h (by simp)
  | ok r =>
    obtain ⟨i1, lines⟩ := r
    simp only [h1] at h
    split at h
    · exact absurd h (by simp)
    next hne =>
      simp only [Except.ok.injEq, Prod.mk.injEq] at h
      exact ⟨trim (List.intercalate ['\n'] lines), h.2.symm, hne⟩

theorem content_block_paragraph_ne_nil {inp i t : Input}
    (h : content_block inp = .ok (i, .Paragraph t)) : t ≠ [] := by
  unfold content_block orElseP at h
  cases h1 : horizontal_rule inp with
  | ok r =>
    obtain ⟨i1, b1⟩ := r
    simp only [h1, Except.ok.injEq, Prod.mk.injEq] at h
    have hb := horizontal_rule_shape h1
    rw [hb] at h
    exact absurd h.2 (by simp)
  | error e1 =>
    simp only [h1] at h
    cases h2 : bullet_list inp with
    | ok r =>
      obtain ⟨i1, b1⟩ := r
      simp only [h2, Except.ok.injEq, Prod.mk.injEq] at h
      obtain ⟨items, hb⟩ := bullet_list_shape h2
      rw [hb] at h
      exact absurd h.2 (by simp)
    | error e2 =>
      simp only [h2] at h
      cases h3 : code_block inp with
      | ok r =>
        obtain ⟨i1, b1⟩ := r
        simp only [h3, Except.ok.injEq, Prod.mk.injEq] at h
        obtain ⟨lg, cd, hb⟩ := code_block_shape h3
        rw [hb] at h
        exact absurd h.2 (by simp)
      | error e3 =>
        simp only [h3] at h
        obtain ⟨tp, hb, hne⟩ := paragraph_shape h
        rw [ContentBlock.Paragraph.injEq] at hb
        exact hb ▸ hne

theorem terminatedP_inv {p : Parser α} {q : Parser β} {j k : Input} {a : α}
    (h : terminatedP p q j = .ok (k, a)) : ∃ m, p j = .ok (m, a) := by
  unfold terminatedP at h
  simp only [bind_apply, pure_apply] at h
  cases h1 : p j with
  | error e => simp only [h1] at h; exact absurd h (by simp)
  | ok r =>
    obtain ⟨m, a1⟩ := r
    simp only [h1] at h
    cases h2 : q m with
    | error e => simp only [h2] at h; exact absurd h (by simp)
    | ok r2 =>
      obtain ⟨k2, b2⟩ := r2
      simp only [h2, Except.ok.injEq, Prod.mk.injEq] at h
      refine ⟨m, ?_⟩
      rw [← h.2]

theorem optP_none_inv {p : Parser α} {inp i : Input}
    (h : optP p inp = .ok (i, (none : Option α))) :
    i = inp ∧ ∃ e, p inp = .error e := by
  unfold optP at h
  cases h1 : p inp with
  | ok r =>
    obtain ⟨i1, a1⟩ := r
    simp only [h1, Except.ok.injEq, Prod.mk.injEq] at h
    exact absurd h.2 (by simp)
  | error e =>
    simp only [h1, Except.ok.injEq, Prod.mk.injEq] at h
    exact ⟨h.1.symm, e, rfl⟩

theorem mapP_err_inv {p : Parser α} {f : α → β} {inp e : Input}
    (h : mapP p f inp = .error e) : p inp = .error e := by
  unfold mapP at h
  simp only [bind_apply, pure_apply] at h
  cases h1 : p inp with
  | ok r =>
    obtain ⟨i1, a1⟩ := r
    simp only [h1] at h
    exact absurd h (by simp)
  | error e1 =>
    simp only [h1] at h
    simp only [Except.error.injEq] at h
    rw [h]

/-- When nom's `not_line_ending` fails (a bare `'\r'` not followed by `'\n'`),
`line_ending` fails at the same position. -/
theorem notLineEnding_err_lineEnding {inp e : Input}
    (h : notLineEnding inp = .error e) : lineEnding inp = .error inp := by
  cases inp with
  | nil => exact absurd h (by simp [notLineEnding, nlePred])
  | cons c t =>
    by_cases hn : c = '\n'
    · subst hn
      exact absurd h (by simp [notLineEnding, nlePred, List.dropWhile_cons])
    · by_cases hr : c = '\r'
      · subst hr
        cases t with
        | nil => rfl
        | cons c2 t2 =>
          by_cases h2 : c2 = '\n'
          · subst h2
            exact absurd h (by simp [notLineEnding, nlePred, List.dropWhile_cons])
          · unfold lineEnding
            split
            next heq => exact absurd heq (by simp)
            next heq =>
              simp only [List.cons.injEq] at heq
              exact absurd heq.2.1 h2
            next => rfl
      · unfold lineEnding
        split
        next heq =>
          simp only [List.cons.injEq] at heq
          exact absurd heq.1 hn
        next heq =>
          simp only [List.cons.injEq] at heq
          exact absurd heq.1 hr
        next => rfl

theorem sectionP_content {inp i : Input} {sec : Section}
    (h : sectionP inp = .ok (i, sec)) :
    ∀ b ∈ sec.content, ∃ j k, content_block j = .ok (k, b) := by
  unfold sectionP at h
  simp only [bind_apply, pure_apply] at h
  cases h1 : heading inp with
  | error e => simp only [h1] at h; exact absurd h (by simp)
  | ok r1 =>
    obtain ⟨i1, hl⟩ := r1
    simp only [h1, ms0_eq] at h
    cases h2 : many0 (terminatedP content_block multispace0) (ltrim i1) with
    | error e => simp only [h2] at h; exact absurd h (by simp)
    | ok r2 =>
      obtain ⟨i2, blocks⟩ := r2
      simp only [h2, Except.ok.injEq, Prod.mk.injEq] at h
      intro b hb
      rw [← h.2] at hb
      simp only at hb
      obtain ⟨j, k, hterm⟩ := many0Aux_mem _ _ _ _ h2 b hb
      obtain ⟨m, hcb⟩ := terminatedP_inv hterm
      exact ⟨j, m, hcb⟩

theorem document_sections_source {s r : Input} {d : A2mlDocument}
    (h : document s = .ok (r, d)) :
    ∀ sec ∈ d.sections, ∃ j k, sectionP j = .ok (k, sec) := by
  rw [document_eq s] at h
  simp only [Except.ok.injEq, Prod.mk.injEq] at h
  intro sec hsec
  rw [← h.2] at hsec
  simp only at hsec
  exact many0Aux_mem _ _ _ _ (docSecs_eq s) sec hsec

-- ============================================================================
-- Claim theorems
-- ============================================================================

/-- Claim C1 (counterexample): the claim asserts that the input
`"@abstract:\nNo closing tag\n"` (an `@abstract` directive whose `@end`
sentinel never appears) makes `parse_a2ml_string` return a ParseError and no
Document.  In fact the parse succeeds: `opt` backtracks over the failed
directive, the resulting Document has no abstract, and the directive's text is
left unconsumed in `raw`. -/
theorem C1_unterminated_abstract_counterexample :
    parse_a2ml_string "@abstract:\nNo closing tag\n".toList =
      .ok { abstract_text := none, sections := [], references := [],
            requirements := [], raw := "@abstract:\nNo closing tag\n".toList } := by
  decide

/-- Claim C1 (amended): an attempted-but-malformed directive (missing
sentinel) is not an unrecoverable parse error; the enclosing document parse
backtracks over it (`opt`), succeeds, reports the directive as absent, and
leaves its text wholly unconsumed in `raw`.  Shown at the claim's input. -/
theorem C1_unterminated_abstract_backtracked :
    ∃ d, parse_a2ml_string "@abstract:\nNo closing tag\n".toList = .ok d ∧
      d.abstract_text = none ∧ d.raw = "@abstract:\nNo closing tag\n".toList :=
  ⟨{ abstract_text := none, sections := [], references := [],
     requirements := [], raw := "@abstract:\nNo closing tag\n".toList },
   by decide, rfl, rfl⟩

/-- Claim C2: `parse_a2ml_string` succeeds on every input string — every
top-level element of `document` is wrapped in `opt` or `many0`, so the
document rule is total and a ParseError is never returned. -/
theorem C2_parse_total (content : Input) :
    ∃ d, parse_a2ml_string content = .ok d := by
  refine ⟨{ abstract_text := (docAbs content).2, sections := (docSecs content).2,
            references := (docRefs content).2.getD [],
            requirements := (docReq content).2.getD [],
            raw := docRest content }, ?_⟩
  unfold parse_a2ml_string
  rw [document_eq content]

/-- Claim C8: no parsed Document ever contains a Paragraph block with empty
text — the paragraph rule fails instead of producing an empty paragraph, and
Paragraph blocks arise only from the paragraph rule. -/
theorem C8_no_empty_paragraph {s : Input} {d : A2mlDocument}
    (h : parse_a2ml_string s = .ok d) :
    ∀ sec ∈ d.sections, ∀ t, ContentBlock.Paragraph t ∈ sec.content → t ≠ [] := by
  unfold parse_a2ml_string at h
  cases hdoc : document s with
  | error e => rw [hdoc] at h; exact absurd h (by simp)
  | ok r =>
    obtain ⟨rrest, d0⟩ := r
    rw [hdoc] at h
    simp only [Except.ok.injEq] at h
    subst h
    intro sec hsec t ht
    obtain ⟨j, k, hsecP⟩ := document_sections_source hdoc sec hsec
    obtain ⟨j2, k2, hcb⟩ := sectionP_content hsecP _ ht
    exact content_block_paragraph_ne_nil hcb

/-- Witness for C8 at a concrete input: the paragraph text `"x"` of the one
paragraph in the parsed document for `"# T\nx\n"` is non-empty. -/
theorem C8_no_empty_paragraph_witness : "x".toList ≠ ([] : List Char) :=
  C8_no_empty_paragraph (s := "# T\nx\n".toList)
    (d := { abstract_text := none,
            sections := [{ heading := "T".toList, level := 1,
                           content := [ContentBlock.Paragraph "x".toList],
                           attestations := [], line_number := 0 }],
            references := [], requirements := [], raw := [] })
    (by decide)
    { heading := "T".toList, level := 1,
      content := [ContentBlock.Paragraph "x".toList],
      attestations := [], line_number := 0 }
    (by decide) "x".toList (by decide)

/-- Claim C9: the `raw` field of the returned Document is exactly the
unconsumed remainder of the parsing pipeline (and so a trailing suffix of the
input), and nothing else. -/
theorem C9_raw_unconsumed_remainder {s : Input} {d : A2mlDocument}
    (h : parse_a2ml_string s = .ok d) :
    document s = .ok (d.raw, d) ∧ d.raw <:+ s := by
  unfold parse_a2ml_string at h
  cases hdoc : document s with
  | error e => rw [hdoc] at h; exact absurd h (by simp)
  | ok r =>
    obtain ⟨rrest, d0⟩ := r
    rw [hdoc] at h
    simp only [Except.ok.injEq] at h
    subst h
    have hsfx := suffix_document s rrest d0 hdoc
    have hdoc2 := hdoc
    have hraw : d0.raw = rrest := by
      rw [document_eq s] at hdoc2
      simp only [Except.ok.injEq, Prod.mk.injEq] at hdoc2
      rw [← hdoc2.2, ← hdoc2.1]
    rw [hraw]
    exact ⟨rfl, hsfx⟩

/-- Witness for C9 at a concrete input: text that matches no rule stays in
`raw` and is a suffix of the input. -/
theorem C9_raw_unconsumed_remainder_witness :
    document "hello".toList =
      .ok (({ abstract_text := none, sections := [], references := [],
              requirements := [], raw := "hello".toList } : A2mlDocument).raw,
           { abstract_text := none, sections := [], references := [],
             requirements := [], raw := "hello".toList }) ∧
    ({ abstract_text := none, sections := [], references := [],
       requirements := [], raw := "hello".toList } : A2mlDocument).raw <:+
      "hello".toList :=
  C9_raw_unconsumed_remainder (s := "hello".toList) (by decide)

/-- Claim C10: whenever the code-block rule succeeds, the `language` field is
`some _`, never `none` — the language sub-parser can only fail on a bare
`'\r'`, and in that case the following `line_ending` fails too, so the whole
rule fails. -/
theorem C10_code_block_language_some {inp i : Input} {b : ContentBlock}
    (h : code_block inp = .ok (i, b)) :
    ∃ lang code, b = .CodeBlock (some lang) code := by
  unfold code_block at h
  simp only [bind_apply, pure_apply] at h
  cases h1 : tagP "```".toList inp with
  | error e => simp only [h1] at h; exact absurd h (by simp)
  | ok r1 =>
    obtain ⟨i1, u1⟩ := r1
    simp only [h1] at h
    cases h2 : optP (mapP notLineEnding trim) i1 with
    | error e => simp only [h2] at h; exact absurd h (by simp)
    | ok r2 =>
      obtain ⟨i2, langOpt⟩ := r2
      simp only [h2] at h
      cases h3 : lineEnding i2 with
      | error e => simp only [h3] at h; exact absurd h (by simp)
      | ok r3 =>
        obtain ⟨i3, u3⟩ := r3
        simp only [h3] at h
        cases langOpt with
        | none =>
          obtain ⟨hii, e, herr⟩ := optP_none_inv h2
          have hnle := mapP_err_inv herr
          have hle := notLineEnding_err_lineEnding hnle
          rw [hii] at h3
          rw [h3] at hle
          exact absurd hle (by simp)
        | some lang =>
          cases h4 : takeUntilP "```".toList i3 with
          | error e => simp only [h4] at h; exact absurd h (by simp)
          | ok r4 =>
            obtain ⟨i4, code⟩ := r4
            simp only [h4] at h
            cases h5 : tagP "```".toList i4 with
            | error e => simp only [h5] at h; exact absurd h (by simp)
            | ok r5 =>
              obtain ⟨i5, u5⟩ := r5
              simp only [h5] at h
              cases h6 : optP lineEnding i5 with
              | error e => simp only [h6] at h; exact absurd h (by simp)
              | ok r6 =>
                obtain ⟨i6, u6⟩ := r6
                simp only [h6, Except.ok.injEq, Prod.mk.injEq] at h
                exact ⟨lang, code, h.2.symm⟩

/-- Witness for C10 at a concrete input: a bare fence with no language tag
still yields `some ""` (the empty language), not `none`. -/
theorem C10_code_block_language_some_witness :
    ∃ lang code,
      (ContentBlock.CodeBlock (some ("".toList)) "x\n".toList : ContentBlock) =
        .CodeBlock (some lang) code :=
  @C10_code_block_language_some "```\nx\n```".toList []
    (.CodeBlock (some "".toList) "x\n".toList) (by decide)

theorem dropWhile_append_stop {q : Char → Bool} {c : Char} (hstop : q c = false)
    (l y : Input) : (l ++ c :: y).dropWhile q = l.dropWhile q ++ c :: y := by
  rw [List.dropWhile_append]
  by_cases hdl : (l.dropWhile q).isEmpty = true
  · rw [if_pos hdl, List.dropWhile_cons, hstop]
    rw [List.isEmpty_iff.mp hdl]
    simp
  · rw [if_neg hdl]

/-- Evaluation of one `- <item>` line of `requires_directive` on a line whose
text `l` contains no line-ending characters. -/
theorem requires_item_eval {l : Input} (hl : ∀ c ∈ l, nlePred c = true) (y : Input) :
    terminatedP (precededP (do _ ← charP '-'; space0) (mapP notLineEnding trim))
      lineEnding ('-' :: ' ' :: (l ++ '\n' :: y)) = .ok (y, trim l) := by
  have hsub : ∀ c ∈ l.dropWhile isSP, nlePred c = true :=
    fun c hc => hl c ((List.dropWhile_suffix isSP).sublist.subset hc)
  have e1 : (' ' :: (l ++ '\n' :: y)).dropWhile isSP = l.dropWhile isSP ++ '\n' :: y := by
    rw [show (' ' :: (l ++ '\n' :: y)).dropWhile isSP = (l ++ '\n' :: y).dropWhile isSP from rfl]
    exact dropWhile_append_stop rfl l y
  have hsp : space0 (' ' :: (l ++ '\n' :: y)) =
      .ok (l.dropWhile isSP ++ '\n' :: y, (' ' :: (l ++ '\n' :: y)).takeWhile isSP) := by
    unfold space0 takeWhileP
    rw [e1]
  have hnle := notLineEnding_append_nl hsub y
  have hle : lineEnding ('\n' :: y) = .ok (y, ['\n']) := rfl
  unfold terminatedP precededP mapP
  simp only [bind_apply, pure_apply, charP_cons_self, hsp, hnle, hle, trim_dropWhile_isSP]

/-- Claim C4: the content-block parser tries horizontal rule, bullet list,
code block, paragraph in that order, first success winning (in particular a
successful horizontal-rule parse is the result); consequently a line `---`
followed by a line ending always parses as a HorizontalRule block, and the
paragraph rule rejects it (the line classifier excludes `---` lines). -/
theorem C4_hrule_priority :
    (∀ inp i b, horizontal_rule inp = .ok (i, b) → content_block inp = .ok (i, b)) ∧
    (∀ rest : Input,
      content_block ("---\n".toList ++ rest) = .ok (rest, .HorizontalRule) ∧
      content_block ("---\r\n".toList ++ rest) = .ok (rest, .HorizontalRule) ∧
      paragraph ("---\n".toList ++ rest) = .error ("---\n".toList ++ rest) ∧
      paragraph ("---\r\n".toList ++ rest) = .error ("---\r\n".toList ++ rest)) := by
  constructor
  · intro inp i b h
    unfold content_block orElseP
    rw [h]
  · intro rest
    exact ⟨rfl, rfl, rfl, rfl⟩

/-- Witness for C4 at a concrete input: `"---\n"` parses as a horizontal
rule via the alternation. -/
theorem C4_hrule_priority_witness :
    content_block "---\n".toList = .ok ([], .HorizontalRule) :=
  C4_hrule_priority.1 "---\n".toList [] .HorizontalRule (by decide)

/-- Claim C7: a well-formed `@requires:` directive with items `- a` and `- b`
parses to the ordered list of trimmed item strings `[trim a, trim b]` (shown
for any two item texts free of line endings, in source order), and a directive
with zero items is a parse failure for this directive. -/
theorem C7_requires_ordered_trimmed (a b rest : Input)
    (ha : ∀ c ∈ a, nlePred c = true) (hb : ∀ c ∈ b, nlePred c = true) :
    requires_directive
        ("@requires:\n- ".toList ++ (a ++ ("\n- ".toList ++ (b ++ ("\n@end".toList ++ rest)))))
      = .ok (ltrim rest, [trim a, trim b]) ∧
    requires_directive "@requires:\n@end\n".toList = .error "@end\n".toList := by
  refine ⟨?_, by decide⟩
  have hitem1 := requires_item_eval ha ('-' :: ' ' :: (b ++ '\n' :: ("@end".toList ++ rest)))
  have hitem2 := requires_item_eval hb ("@end".toList ++ rest)
  have hfail : terminatedP (precededP (do _ ← charP '-'; space0) (mapP notLineEnding trim))
      lineEnding ("@end".toList ++ rest) = .error ("@end".toList ++ rest) := rfl
  have hne1 : ("@end".toList ++ rest) ≠ '-' :: ' ' :: (b ++ '\n' :: ("@end".toList ++ rest)) := by
    intro hc
    have := congrArg List.length hc
    simp only [List.length_append, List.length_cons] at this
    omega
  unfold requires_directive
  simp only [bind_apply, pure_apply]
  rw [show ("@requires:\n- ".toList ++ (a ++ ("\n- ".toList ++ (b ++ ("\n@end".toList ++ rest)))))
      = "@requires:".toList ++
        ('\n' :: '-' :: ' ' :: (a ++ '\n' :: ('-' :: ' ' :: (b ++ '\n' :: ("@end".toList ++ rest)))))
      from rfl]
  simp only [tagP_append, ms0_eq]
  rw [show ltrim ('\n' :: '-' :: ' ' ::
        (a ++ '\n' :: ('-' :: ' ' :: (b ++ '\n' :: ("@end".toList ++ rest)))))
      = '-' :: ' ' :: (a ++ '\n' :: ('-' :: ' ' :: (b ++ '\n' :: ("@end".toList ++ rest))))
      from rfl]
  unfold many1
  simp only [hitem1, List.length_cons]
  rw [many0Aux_succ]
  simp only [hitem2]
  rw [if_neg hne1]
  rw [show (b ++ '\n' :: ("@end".toList ++ rest)).length + 2 =
      ((b ++ '\n' :: ("@end".toList ++ rest)).length + 1) + 1 from rfl]
  rw [many0Aux_succ]
  simp only [hfail, tagP_append, ms0_eq]

/-- Witness for C7 at the claim's concrete input: items `A`, `B` in order. -/
theorem C7_requires_ordered_trimmed_witness :
    requires_directive "@requires:\n- A\n- B\n@end\n".toList =
      .ok ([], ["A".toList, "B".toList]) := by
  have h := (C7_requires_ordered_trimmed "A".toList "B".toList "\n".toList
    (by decide) (by decide)).1
  exact h.trans (by decide)

/-- Claim C6: on a line `[<digits>] <rest>` the reference parser yields the
digit string as `id` and splits the (trimmed) rest-of-line text by the spec's
URL heuristic (`refSplitSpec`): if the text contains `http://` or `https://`,
the URL runs from the first `http` to the next whitespace or `')'` and the
descriptive text is the trimmed text before it; otherwise the whole text is
descriptive and the URL is absent. -/
theorem C6_reference_url_heuristic (ds t rest : Input)
    (hds : ds ≠ []) (hnum : ∀ c ∈ ds, isNumericChar c = true)
    (ht : ∀ c ∈ t, nlePred c = true) :
    reference ('[' :: (ds ++ ']' :: ' ' :: (t ++ '\n' :: rest))) =
      .ok (rest, { id := ds, text := (refSplitSpec (trim t)).1,
                   url := (refSplitSpec (trim t)).2 }) := by
  have hsub : ∀ c ∈ t.dropWhile isSP, nlePred c = true :=
    fun c hc => ht c ((List.dropWhile_suffix isSP).sublist.subset hc)
  have hsp : space0 (' ' :: (t ++ '\n' :: rest)) =
      .ok (t.dropWhile isSP ++ '\n' :: rest, (' ' :: (t ++ '\n' :: rest)).takeWhile isSP) := by
    unfold space0 takeWhileP
    rw [show (' ' :: (t ++ '\n' :: rest)).dropWhile isSP = (t ++ '\n' :: rest).dropWhile isSP
      from rfl]
    rw [dropWhile_append_stop rfl t rest]
  have hnle := notLineEnding_append_nl hsub rest
  have hle : lineEnding ('\n' :: rest) = .ok (rest, ['\n']) := rfl
  have htk := takeWhile1P_append hnum hds (show isNumericChar ']' = false from rfl)
    (' ' :: (t ++ '\n' :: rest))
  unfold reference
  simp only [bind_apply, pure_apply, charP_cons_self, htk, hsp, hnle, hle,
    trim_dropWhile_isSP]
  unfold refSplitSpec
  by_cases hc : (containsSub "http://".toList (trim t)
      || containsSub "https://".toList (trim t)) = true
  · rw [if_pos hc, if_pos hc]
    cases hidx : firstSubIdx "http".toList (trim t) with
    | some start => simp only [hidx]; rfl
    | none => simp only [hidx]; rfl
  · rw [if_neg hc, if_neg hc]
    rfl

/-- Witness for C6 at the claim's concrete input: a reference line with no
URL yields the whole trimmed line as text and no URL. -/
theorem C6_reference_url_heuristic_witness :
    reference "[1] UK Employment Rights Act 1996\n".toList =
      .ok ([], { id := "1".toList, text := "UK Employment Rights Act 1996".toList,
                 url := none }) := by
  have h := C6_reference_url_heuristic "1".toList
    "UK Employment Rights Act 1996".toList [] (by decide) (by decide) (by decide)
  exact h.trans (by decide)

-- ============================================================================
-- Occurrence-search lemmas (for the abstract directive characterization)
-- ============================================================================

theorem firstSubIdx_some_isPrefixOf {pat : Input} :
    ∀ (s : Input) (i : Nat), firstSubIdx pat s = some i →
      pat.isPrefixOf (s.drop i) = true := by
  intro s
  induction s with
  | nil =>
    intro i h
    unfold firstSubIdx at h
    split at h
    next hpre =>
      simp only [Option.some.injEq] at h
      rw [← h, List.drop_nil]
      exact hpre
    next => exact absurd h (by simp)
  | cons c r ih =>
    intro i h
    unfold firstSubIdx at h
    split at h
    next hpre =>
      simp only [Option.some.injEq] at h
      rw [← h]
      exact hpre
    next =>
      simp only [Option.map_eq_some'] at h
      obtain ⟨j, hj, hij⟩ := h
      rw [← hij, List.drop_succ_cons]
      exact ih j hj

theorem ltrim_cons_ws {c : Char} (hw : isWS c = true) (x : Input) :
    ltrim (c :: x) = ltrim x := by
  unfold ltrim
  rw [List.dropWhile_cons, hw]
  simp

theorem ltrim_cons_not_ws {c : Char} (hw : isWS c = false) (x : Input) :
    ltrim (c :: x) = c :: x := by
  unfold ltrim
  rw [List.dropWhile_cons, hw]
  simp

theorem trim_cons_ws {c : Char} (hw : isWS c = true) (x : Input) :
    trim (c :: x) = trim x := by
  unfold trim
  rw [ltrim_cons_ws hw]

theorem isPrefixOf_cons_ne_head {p c : Char} {pr w : Input} (hne : p ≠ c) :
    (p :: pr).isPrefixOf (c :: w) = false := by
  simp only [List.isPrefixOf_cons₂]
  simp [hne]

theorem firstSubIdx_cons_shift {p : Char} {pr : Input} {c : Char} {w : Input}
    (hne : p ≠ c) :
    firstSubIdx (p :: pr) (c :: w) = (firstSubIdx (p :: pr) w).map (· + 1) := by
  rw [show firstSubIdx (p :: pr) (c :: w)
      = if (p :: pr).isPrefixOf (c :: w) = true then some 0
        else (firstSubIdx (p :: pr) w).map (· + 1) from rfl,
    if_neg (by rw [isPrefixOf_cons_ne_head hne]; exact Bool.false_ne_true)]

theorem ne_of_ws {p c : Char} (hp : isWS p = false) (hc : isWS c = true) : p ≠ c :=
  fun h => by rw [h, hc] at hp; exact absurd hp (by simp)

/-- An occurrence of a pattern whose first character is not whitespace
survives stripping leading whitespace. -/
theorem containsSub_ltrim {p : Char} {pr : Input} (hp : isWS p = false) :
    ∀ v : Input, containsSub (p :: pr) (ltrim v) = containsSub (p :: pr) v := by
  intro v
  induction v with
  | nil => rfl
  | cons c w ih =>
    by_cases hw : isWS c = true
    · rw [ltrim_cons_ws hw, ih]
      unfold containsSub
      rw [firstSubIdx_cons_shift (ne_of_ws hp hw)]
      simp
    · rw [ltrim_cons_not_ws (by simpa using hw)]

/-- The trimmed text before the first occurrence of a non-whitespace-headed
pattern is unchanged by first stripping leading whitespace. -/
theorem trim_take_firstSubIdx_ltrim {p : Char} {pr : Input} (hp : isWS p = false) :
    ∀ v : Input,
      trim ((ltrim v).take ((firstSubIdx (p :: pr) (ltrim v)).getD 0)) =
        trim (v.take ((firstSubIdx (p :: pr) v).getD 0)) := by
  intro v
  induction v with
  | nil => rfl
  | cons c w ih =>
    by_cases hw : isWS c = true
    · rw [ltrim_cons_ws hw, ih]
      rw [firstSubIdx_cons_shift (ne_of_ws hp hw)]
      cases hidx : firstSubIdx (p :: pr) w with
      | none => simp
      | some j =>
        simp only [hidx, Option.map_some', Option.getD_some, List.take_succ_cons]
        rw [trim_cons_ws hw]
    · rw [ltrim_cons_not_ws (by simpa using hw)]

theorem abstract_directive_no_tag {u : Input}
    (h : ¬ ("@abstract:".toList.isPrefixOf u = true)) :
    abstract_directive u = .error u := by
  unfold abstract_directive
  simp only [bind_apply]
  unfold tagP
  rw [if_neg h]

theorem abstract_directive_no_end {u : Input}
    (hpre : "@abstract:".toList.isPrefixOf u = true)
    (hidx : firstSubIdx "@end".toList (ltrim (u.drop "@abstract:".toList.length)) = none) :
    abstract_directive u = .error (ltrim (u.drop "@abstract:".toList.length)) := by
  unfold abstract_directive
  simp only [bind_apply]
  unfold tagP
  rw [if_pos hpre]
  simp only [ms0_eq]
  unfold takeUntilP
  simp only [hidx]

theorem abstract_directive_found {u : Input} {idx : Nat}
    (hpre : "@abstract:".toList.isPrefixOf u = true)
    (hidx : firstSubIdx "@end".toList (ltrim (u.drop "@abstract:".toList.length)) = some idx) :
    ∃ r, abstract_directive u =
      .ok (r, trim ((ltrim (u.drop "@abstract:".toList.length)).take idx)) := by
  have hend := firstSubIdx_some_isPrefixOf _ idx hidx
  unfold abstract_directive
  simp only [bind_apply, pure_apply]
  unfold tagP
  rw [if_pos hpre]
  simp only [ms0_eq]
  unfold takeUntilP
  simp only [hidx]
  rw [if_pos hend]
  exact ⟨_, rfl⟩

theorem parse_doc_fields {s : Input} {d : A2mlDocument}
    (h : parse_a2ml_string s = .ok d) :
    d = { abstract_text := (docAbs s).2, sections := (docSecs s).2,
          references := (docRefs s).2.getD [],
          requirements := (docReq s).2.getD [],
          raw := docRest s } := by
  unfold parse_a2ml_string at h
  rw [document_eq s] at h
  simp only [Except.ok.injEq] at h
  exact h.symm

/-- Claim C3 (counterexample): the claim's "if and only if a well-formed
`@abstract: … @end` block exists somewhere in the input" fails in the
only-if direction: the input `"# H\n@abstract:\nx\n@end\n"` contains a
well-formed abstract block, yet the parse succeeds with `abstract_text =
none`, because `document` only attempts the directive at the very start
(after leading whitespace). -/
theorem C3_abstract_iff_counterexample :
    HasAbstractBlockSomewhere "# H\n@abstract:\nx\n@end\n".toList ∧
    ∃ d, parse_a2ml_string "# H\n@abstract:\nx\n@end\n".toList = .ok d ∧
      d.abstract_text = none :=
  ⟨⟨"# H\n".toList, "\nx\n".toList, "\n".toList, by decide⟩,
   ⟨{ abstract_text := none,
      sections := [{ heading := "H".toList, level := 1, content := [],
                     attestations := [], line_number := 0 }],
      references := [], requirements := [],
      raw := "@abstract:\nx\n@end\n".toList },
    by decide, rfl⟩⟩

/-- Claim C3 (amended): `abstract_text` is `some _` if and only if the input,
after leading whitespace, begins with `@abstract:` and the sentinel `@end`
occurs in what follows; when present, its value is the body text between the
directive keyword and the first `@end` sentinel, trimmed. -/
theorem C3_abstract_iff_amended {s : Input} {d : A2mlDocument}
    (h : parse_a2ml_string s = .ok d) :
    (d.abstract_text.isSome = true ↔ hasAbstractBlockAtStart s = true) ∧
    (∀ t, d.abstract_text = some t → t = abstractBodyOf s) := by
  have hd := parse_doc_fields h
  rw [hd]
  unfold docAbs runOpt hasAbstractBlockAtStart abstractBodyOf
  by_cases hpre : "@abstract:".toList.isPrefixOf (ltrim s) = true
  · have hct : (firstSubIdx "@end".toList
          (ltrim ((ltrim s).drop "@abstract:".toList.length))).isSome
        = (firstSubIdx "@end".toList ((ltrim s).drop "@abstract:".toList.length)).isSome :=
      @containsSub_ltrim '@' "end".toList rfl
        ((ltrim s).drop "@abstract:".toList.length)
    cases hidx : firstSubIdx "@end".toList
        (ltrim ((ltrim s).drop "@abstract:".toList.length)) with
    | none =>
      simp only [abstract_directive_no_end hpre hidx]
      rw [hidx] at hct
      have hcs : containsSub "@end".toList ((ltrim s).drop "@abstract:".toList.length)
          = false := by unfold containsSub; simpa using hct.symm
      constructor
      · constructor
        · intro hfalse; exact absurd hfalse (by simp)
        · intro hrhs
          rw [Bool.and_eq_true] at hrhs
          exact absurd hrhs.2 (by rw [hcs]; simp)
      · intro t ht
        exact absurd ht (by simp)
    | some idx =>
      obtain ⟨r, habs⟩ := abstract_directive_found hpre hidx
      simp only [habs]
      rw [hidx] at hct
      have hcs : containsSub "@end".toList ((ltrim s).drop "@abstract:".toList.length)
          = true := by unfold containsSub; simpa using hct.symm
      constructor
      · constructor
        · intro _; rw [Bool.and_eq_true]; exact ⟨hpre, hcs⟩
        · intro _; simp
      · intro t ht
        simp only [Option.some.injEq] at ht
        rw [← ht]
        have htr : trim (((ltrim ((ltrim s).drop "@abstract:".toList.length))).take
              ((firstSubIdx "@end".toList
                (ltrim ((ltrim s).drop "@abstract:".toList.length))).getD 0))
            = trim (((ltrim s).drop "@abstract:".toList.length).take
              ((firstSubIdx "@end".toList
                ((ltrim s).drop "@abstract:".toList.length)).getD 0)) :=
          @trim_take_firstSubIdx_ltrim '@' "end".toList rfl
            ((ltrim s).drop "@abstract:".toList.length)
        rw [hidx] at htr
        simpa using htr
  · simp only [abstract_directive_no_tag hpre]
    have hft : "@abstract:".toList.isPrefixOf (ltrim s) = false := by
      cases hb : "@abstract:".toList.isPrefixOf (ltrim s) with
      | false => rfl
      | true => exact absurd hb hpre
    constructor
    · constructor
      · intro hfalse; exact absurd hfalse (by simp)
      · intro hrhs
        rw [Bool.and_eq_true] at hrhs
        exact absurd hrhs.1 (by rw [hft]; simp)
    · intro t ht
      exact absurd ht (by simp)

/-- Witness for the amended C3 at a concrete input: a well-formed abstract at
the start of the input yields `some` of the trimmed body. -/
theorem C3_abstract_iff_amended_witness :
    (((some "Hi there".toList : Option Input).isSome = true ↔
        hasAbstractBlockAtStart "@abstract:\nHi there\n@end\n".toList = true) ∧
      (∀ t, (some "Hi there".toList : Option Input) = some t →
        t = abstractBodyOf "@abstract:\nHi there\n@end\n".toList)) :=
  C3_abstract_iff_amended (s := "@abstract:\nHi there\n@end\n".toList)
    (d := { abstract_text := some "Hi there".toList, sections := [],
            references := [], requirements := [], raw := [] })
    (by decide)

-- ============================================================================
-- Trim/prefix lemmas for the attestation classifier (claim C5)
-- ============================================================================

theorem dropWhile_eq_self_of_all {q : Char → Bool} :
    ∀ {l : Input}, (∀ c ∈ l, q c = false) → l.dropWhile q = l := by
  intro l h
  cases l with
  | nil => rfl
  | cons c r =>
    rw [List.dropWhile_cons, h c (List.mem_cons_self c r)]
    simp

theorem rtrim_isPrefix (y : Input) : rtrim y <+: y := by
  unfold rtrim
  have h := List.reverse_prefix.mpr (List.dropWhile_suffix (l := y.reverse) isWS)
  simpa using h

theorem rtrim_append_of_nil {z : Input} (hz : rtrim z = []) (x : Input) :
    rtrim (x ++ z) = rtrim x := by
  unfold rtrim at hz ⊢
  rw [List.reverse_eq_nil_iff] at hz
  rw [List.reverse_append, List.dropWhile_append, hz]
  simp

theorem rtrim_append_of_ne {z : Input} (hz : rtrim z ≠ []) (x : Input) :
    rtrim (x ++ z) = x ++ rtrim z := by
  have hz' : z.reverse.dropWhile isWS ≠ [] := by
    intro hc
    exact hz (by unfold rtrim; rw [hc]; rfl)
  unfold rtrim
  rw [List.reverse_append, List.dropWhile_append,
    if_neg (by simpa [List.isEmpty_iff] using hz')]
  rw [List.reverse_append, List.reverse_reverse]

theorem rtrim_wsfree {l : Input} (h : ∀ c ∈ l, isWS c = false) : rtrim l = l := by
  unfold rtrim
  rw [dropWhile_eq_self_of_all (fun c hc => h c (List.mem_reverse.mp hc))]
  rw [List.reverse_reverse]

theorem isPrefixOf_rtrim {pat : Input} (hws : ∀ c ∈ pat, isWS c = false)
    (y : Input) : pat.isPrefixOf (rtrim y) = pat.isPrefixOf y := by
  rw [Bool.eq_iff_iff, List.isPrefixOf_iff_prefix, List.isPrefixOf_iff_prefix]
  constructor
  · intro h
    exact h.trans (rtrim_isPrefix y)
  · intro h
    obtain ⟨z, hz⟩ := h
    by_cases hzz : rtrim z = []
    · rw [← hz, rtrim_append_of_nil hzz, rtrim_wsfree hws]
    · rw [← hz, rtrim_append_of_ne hzz]
      exact List.prefix_append pat (rtrim z)

theorem isPrefixOf_append_stopA {r2 : Input} :
    ∀ (u pat : Input), pat ≠ [] → 'A' ∉ pat →
      pat.isPrefixOf (u ++ 'A' :: r2) = pat.isPrefixOf u := by
  intro u
  induction u with
  | nil =>
    intro pat hne hA
    cases pat with
    | nil => exact absurd rfl hne
    | cons pc pr =>
      rw [List.nil_append,
        isPrefixOf_cons_ne_head (fun h => hA (by rw [← h]; exact List.mem_cons_self _ _))]
      rfl
  | cons c u2 ih =>
    intro pat hne hA
    cases pat with
    | nil => exact absurd rfl hne
    | cons pc pr =>
      rw [List.cons_append, List.isPrefixOf_cons₂, List.isPrefixOf_cons₂]
      by_cases hpr : pr = []
      · subst hpr
        rw [show ([] : Input).isPrefixOf (u2 ++ 'A' :: r2) = true from by simp,
          show ([] : Input).isPrefixOf u2 = true from by simp]
      · rw [ih pr hpr (fun h => hA (List.mem_cons_of_mem _ h))]

theorem isPrefixOf_trim_append_sep {pat p r : Input}
    (hne : pat ≠ []) (hws : ∀ c ∈ pat, isWS c = false) (hA : 'A' ∉ pat)
    (hr : r = [] ∨ ∃ r2, r = 'A' :: r2) :
    pat.isPrefixOf (trim (p ++ r)) = pat.isPrefixOf (trim p) := by
  rcases hr with hr | ⟨r2, hr⟩
  · subst hr; rw [List.append_nil]
  · subst hr
    unfold trim
    rw [isPrefixOf_rtrim hws, isPrefixOf_rtrim hws]
    unfold ltrim
    rw [dropWhile_append_stop rfl p r2]
    exact isPrefixOf_append_stopA _ pat hne hA

theorem firstSubIdx_cons_eq (t : Input) (c : Char) (w : Input) :
    firstSubIdx t (c :: w) =
      if t.isPrefixOf (c :: w) = true then some 0
      else (firstSubIdx t w).map (· + 1) := rfl

theorem containsSub_isInfix {t : Input} : ∀ {s : Input},
    containsSub t s = true ↔ t <:+: s := by
  intro s
  induction s with
  | nil =>
    constructor
    · intro h
      unfold containsSub firstSubIdx at h
      by_cases hp : t.isPrefixOf ([] : Input) = true
      · rw [List.infix_nil]
        exact List.prefix_nil.mp (List.isPrefixOf_iff_prefix.mp hp)
      · rw [if_neg hp] at h
        simp at h
    · intro h
      rw [List.infix_nil] at h
      subst h
      rfl
  | cons c w ih =>
    constructor
    · intro h
      unfold containsSub at h
      rw [firstSubIdx_cons_eq] at h
      by_cases hp : t.isPrefixOf (c :: w) = true
      · exact (List.isPrefixOf_iff_prefix.mp hp).isInfix
      · rw [if_neg hp] at h
        rw [Option.isSome_map'] at h
        exact List.infix_cons_iff.mpr (Or.inr (ih.mp h))
    · intro h
      unfold containsSub
      rw [firstSubIdx_cons_eq]
      by_cases hp : t.isPrefixOf (c :: w) = true
      · rw [if_pos hp]; rfl
      · rw [if_neg hp, Option.isSome_map']
        rcases List.infix_cons_iff.mp h with hpre | hinf
        · exact absurd (List.isPrefixOf_iff_prefix.mpr hpre) hp
        · exact ih.mpr hinf

/-- `afterFirstSub` decomposes as the split segment followed by a tail that is
either empty or begins with another occurrence of the separator. -/
theorem afterFirstSub_decomp (sep t : Input) :
    ∃ rt, afterFirstSub sep t = splitPart1 sep t ++ rt ∧
      (rt = [] ∨ sep.isPrefixOf rt = true) := by
  have hsp : splitPart1 sep t =
      match firstSubIdx sep (afterFirstSub sep t) with
      | some j => (afterFirstSub sep t).take j
      | none => afterFirstSub sep t := rfl
  cases hj : firstSubIdx sep (afterFirstSub sep t) with
  | none =>
    refine ⟨[], ?_, Or.inl rfl⟩
    simp only [hsp, hj, List.append_nil]
  | some j =>
    refine ⟨(afterFirstSub sep t).drop j, ?_,
      Or.inr (firstSubIdx_some_isPrefixOf _ j hj)⟩
    simp only [hsp, hj]
    exact (List.take_append_drop j (afterFirstSub sep t)).symm

/-- The modal classification computed on Rust's `split` segment (between the
first and second occurrence of `Attestation:`) agrees with the classification
of everything after the first occurrence: the three modal patterns contain
neither whitespace nor the character `'A'`, so a following occurrence of the
separator cannot change any prefix test. -/
theorem splitPart1_classify_agree (t : Input) :
    (if "*Must*".toList.isPrefixOf (trim (splitPart1 "Attestation:".toList t))
        then "MUST".toList
      else if "*Should*".toList.isPrefixOf (trim (splitPart1 "Attestation:".toList t))
        then "SHOULD".toList
      else if "*Could*".toList.isPrefixOf (trim (splitPart1 "Attestation:".toList t))
        then "COULD".toList
      else "MUST".toList)
    = classifyAfterFirst t := by
  obtain ⟨rt, hdecomp, hrt⟩ := afterFirstSub_decomp "Attestation:".toList t
  have hr' : rt = [] ∨ ∃ r2, rt = 'A' :: r2 := by
    rcases hrt with h | h
    · exact Or.inl h
    · obtain ⟨z, hz⟩ := List.isPrefixOf_iff_prefix.mp h
      exact Or.inr ⟨"ttestation:".toList ++ z, by rw [← hz]; rfl⟩
  have hm := @isPrefixOf_trim_append_sep "*Must*".toList
    (splitPart1 "Attestation:".toList t) rt (by decide) (by decide) (by decide) hr'
  have hs := @isPrefixOf_trim_append_sep "*Should*".toList
    (splitPart1 "Attestation:".toList t) rt (by decide) (by decide) (by decide) hr'
  have hc := @isPrefixOf_trim_append_sep "*Could*".toList
    (splitPart1 "Attestation:".toList t) rt (by decide) (by decide) (by decide) hr'
  unfold classifyAfterFirst
  rw [hdecomp]
  dsimp only
  rw [hm, hs, hc]

theorem containsSub_att2_imp {t : Input}
    (h : containsSub "**Attestation:**".toList t = true) :
    containsSub "Attestation:".toList t = true :=
  containsSub_isInfix.mpr
    ((containsSub_isInfix.mp
      (by decide : containsSub "Attestation:".toList "**Attestation:**".toList = true)).trans
      (containsSub_isInfix.mp h))

theorem extract_aux :
    ∀ (bs : List ContentBlock) (acc : List Attestation),
      List.foldl
        (fun attestations block =>
          match block with
          | .Paragraph text =>
            if containsSub "**Attestation:**".toList text
                || containsSub "Attestation:".toList text then
              if containsSub "Attestation:".toList text then
                let attestation_text := trim (splitPart1 "Attestation:".toList text)
                let requirement :=
                  if "*Must*".toList.isPrefixOf attestation_text then "MUST".toList
                  else if "*Should*".toList.isPrefixOf attestation_text then "SHOULD".toList
                  else if "*Could*".toList.isPrefixOf attestation_text then "COULD".toList
                  else "MUST".toList
                attestations ++ [⟨firstLine text, requirement, none⟩]
              else attestations
            else attestations
          | _ => attestations) acc bs
      = acc ++ attestationSpec bs := by
  intro bs
  induction bs with
  | nil => intro acc; simp [attestationSpec]
  | cons b bs2 ih =>
    intro acc
    rw [List.foldl_cons, ih]
    unfold attestationSpec
    rw [List.filterMap_cons]
    cases b with
    | Paragraph t =>
      by_cases hc1 : containsSub "Attestation:".toList t = true
      · have hor : (containsSub "**Attestation:**".toList t
            || containsSub "Attestation:".toList t) = true := by
          rw [hc1, Bool.or_true]
        dsimp only
        rw [hor, hc1]
        simp only [if_true]
        rw [splitPart1_classify_agree t]
        simp
      · have hc1f : containsSub "Attestation:".toList t = false := by
          cases hb : containsSub "Attestation:".toList t
          · rfl
          · exact absurd hb hc1
        have hc2f : containsSub "**Attestation:**".toList t = false := by
          cases hb : containsSub "**Attestation:**".toList t
          · rfl
          · exact absurd (containsSub_att2_imp hb) hc1
        dsimp only
        rw [show (containsSub "**Attestation:**".toList t
            || containsSub "Attestation:".toList t) = false from by rw [hc1f, hc2f]; rfl,
          hc1f,
          if_neg (show ¬(false = true) from by decide),
          if_neg (show ¬(false = true) from by decide)]
    | BulletList items => simp
    | Table headers rows => simp
    | CodeBlock language code => simp
    | HorizontalRule => simp

/-- Claim C5: the attestation extractor keeps exactly the Paragraph blocks
containing `Attestation:` (other block kinds and other paragraphs are
ignored), in order; each produced Attestation's claim is the paragraph's
first line verbatim, its reference is absent, and its requirement strength is
obtained by testing whether the (trimmed) text after the first `Attestation:`
begins with `*Must*`, `*Should*`, `*Could*`, in that order, defaulting to
MUST. -/
theorem C5_attestation_extractor_spec (blocks : List ContentBlock) :
    extract_attestations blocks = attestationSpec blocks := by
  have h := extract_aux blocks []
  unfold extract_attestations
  exact h.trans (List.nil_append _)

end A2ML
